import Mathlib

/-!
# lb-rpc: IDL stub generator and RPC server

A shallow embedding of `generators/stub_generator.go` (the IDL parser in `main`, the two
`text/template` stubs and the `HandleConnection` / client functions they expand to) and of the
accept loop and shutdown sequence of `server/server.go`.

Go strings are modelled as lists of characters (`Str`), Go panics as `Except.error`.
-/

set_option autoImplicit false
set_option maxRecDepth 20000

namespace LbRpc

/-- A Go string, as its sequence of code points. -/
abbrev Str := List Char

/-- The run-time panics the embedded code can raise. -/
inductive Panic where
  /-- An index expression `xs[i]` with `i ≥ len(xs)`. -/
  | indexOutOfRange
  /-- A failing single-value type assertion `x.(T)`. -/
  | typeAssertion
  /-- Call `panic(err)` after a failed `os.Create`. -/
  | fileCreate
  deriving DecidableEq, Repr

/-- Go index expression `xs[i]`: panics when `i` is out of range. -/
def index {α : Type} (xs : List α) (i : Nat) : Except Panic α :=
  match xs.get? i with
  | some x => .ok x
  | none => .error .indexOutOfRange

/-! ## Package `strings` -/

/-- Test `unicode.IsSpace`. -/
def isSpace (c : Char) : Bool :=
  let n := c.toNat
  (0x09 ≤ n && n ≤ 0x0D) || n == 0x20 || n == 0x85 || n == 0xA0 || n == 0x1680 ||
  (0x2000 ≤ n && n ≤ 0x200A) || n == 0x2028 || n == 0x2029 || n == 0x202F || n == 0x205F ||
  n == 0x3000

/-- Worker of `strings.Fields`: `cur` is the field being collected. -/
def fieldsAux : Str → Str → List Str
  | cur, [] => if cur.isEmpty then [] else [cur]
  | cur, c :: cs =>
    if isSpace c then
      if cur.isEmpty then fieldsAux [] cs else cur :: fieldsAux [] cs
    else fieldsAux (cur ++ [c]) cs

/-- Function `strings.Fields`: the maximal runs of non-space characters. -/
def Fields (s : Str) : List Str := fieldsAux [] s

/-- Worker of `strings.Split` for a one-character separator. -/
def splitAux (sep : Char) : Str → Str → List Str
  | cur, [] => [cur]
  | cur, c :: cs => if c = sep then cur :: splitAux sep [] cs else splitAux sep (cur ++ [c]) cs

/-- Function `strings.Split(s, sep)` for a one-character `sep`; `Split("", ",")` is `[""]`. -/
def Split (s : Str) (sep : Char) : List Str := splitAux sep [] s

/-- Test whether `p` starts `s`. -/
def startsWith : Str → Str → Bool
  | [], _ => true
  | _ :: _, [] => false
  | a :: p, b :: s => a = b && startsWith p s

/-- Function `strings.Contains(s, substr)`. -/
def Contains : Str → Str → Bool
  | [], sub => sub.isEmpty
  | c :: cs, sub => startsWith sub (c :: cs) || Contains cs sub

/-- ASCII letters, digits and underscore: what neither `\w` nor `isSeparator` splits. -/
def isWord (c : Char) : Bool :=
  let n := c.toNat
  (0x30 ≤ n && n ≤ 0x39) || (0x41 ≤ n && n ≤ 0x5A) || (0x61 ≤ n && n ≤ 0x7A) || n == 0x5F

/-- Function `isSeparator` of package `strings`. For ASCII it is exact; beyond ASCII Go also
treats letters and digits as non-separators, which the embedding does not track (the parser
only ever titles a `\w+` match, which is ASCII). -/
def isSeparator (c : Char) : Bool :=
  if c.toNat ≤ 0x7F then !isWord c else isSpace c

/-- Function `unicode.ToTitle` on ASCII: lower-case letters go to upper case. -/
def toTitle (c : Char) : Char :=
  if 0x61 ≤ c.toNat ∧ c.toNat ≤ 0x7A then Char.ofNat (c.toNat - 0x20) else c

/-- Worker of `strings.Title`: `prev` is the previous character. -/
def titleAux : Char → Str → Str
  | _, [] => []
  | prev, c :: cs => (if isSeparator prev then toTitle c else c) :: titleAux c cs

/-- Function `strings.Title`: title-cases the first letter of every word. -/
def Title (s : Str) : Str := titleAux ' ' s

/-! ## Package `regexp`, for patterns that are sequences of literals and greedy class loops -/

/-- One element of a pattern. -/
inductive Piece where
  /-- A literal character. -/
  | char (c : Char)
  /-- A greedy `[class]*`; `capture` says whether it is wrapped in a capturing group. -/
  | star (cls : Char → Bool) (capture : Bool)
  /-- A greedy `[class]+`; `capture` says whether it is wrapped in a capturing group. -/
  | plus (cls : Char → Bool) (capture : Bool)

/-- Greedy loop over a character class: consume as many characters as possible, then hand the
consumed text and the rest to the continuation `k`, giving characters back while `k` fails. -/
def greedy {α : Type} (cls : Char → Bool) (k : Str → Str → Option α) : Str → Str → Option α
  | got, [] => k got []
  | got, c :: cs =>
    if cls c then
      match greedy cls k (got ++ [c]) cs with
      | some r => some r
      | none => k got (c :: cs)
    else k got (c :: cs)

/-- Match a pattern at the start of the input (leftmost-first, backtracking). Returns the
captured groups in order and the unconsumed rest. -/
def matchHere : List Piece → List Str → Str → Option (List Str × Str)
  | [], caps, s => some (caps, s)
  | .char c :: ps, caps, s =>
    match s with
    | [] => none
    | x :: xs => if x = c then matchHere ps caps xs else none
  | .star cls capture :: ps, caps, s =>
    greedy cls (fun got rest => matchHere ps (if capture then caps ++ [got] else caps) rest) [] s
  | .plus cls capture :: ps, caps, s =>
    match s with
    | [] => none
    | x :: xs =>
      if cls x then
        greedy cls (fun got rest => matchHere ps (if capture then caps ++ [got] else caps) rest)
          [x] xs
      else none

/-- Method `(*Regexp).FindStringSubmatch`: the leftmost match, as the matched text followed
by the text of each group; `none` is Go's `nil` slice. -/
def FindStringSubmatch (re : List Piece) : Str → Option (List Str)
  | [] =>
    match matchHere re [] [] with
    | some (caps, _) => some ([] :: caps)
    | none => none
  | c :: cs =>
    match matchHere re [] (c :: cs) with
    | some (caps, rest) => some ((c :: cs).take ((c :: cs).length - rest.length) :: caps)
    | none => FindStringSubmatch re cs

/-- Perl class `\s` of package `regexp/syntax`: `[\t\n\f\r ]`. -/
def reSpace (c : Char) : Bool :=
  c = '\t' || c = '\n' || c = '\x0c' || c = '\r' || c = ' '

/-- Negated class `[^)]`. -/
def notClose (c : Char) : Bool := !(c = ')')

/-- The regular expression of the parser,
`(\w+)\(([^)]*)\)\s*->\s*\(([^)]*)\);`. -/
def pattern : List Piece :=
  [.plus isWord true, .char '(', .star notClose true, .char ')', .star reSpace false,
   .char '-', .char '>', .star reSpace false, .char '(', .star notClose true, .char ')',
   .char ';']

/-! ## The service model -/

/-- A Go `map[string]V`, as an association list: the first entry of a key is its value, the
order of the entries is not observable (see `mapRange`). -/
abbrev GoMap (V : Type) := List (Str × V)

/-- Map lookup `m[k]`, `none` standing for the absent key. -/
def mapGet {V : Type} : GoMap V → Str → Option V
  | [], _ => none
  | (k, v) :: m, key => if k = key then some v else mapGet m key

/-- Map assignment `m[k] = v`. -/
def mapSet {V : Type} : GoMap V → Str → V → GoMap V
  | [], key, val => [(key, val)]
  | (k, v) :: m, key, val => if k = key then (k, val) :: m else (k, v) :: mapSet m key val

/-- Type `Method`: name, parameters and returns, the latter two as maps from name to type. -/
structure Method where
  Name : Str
  Params : GoMap Str
  Returns : GoMap Str
  deriving DecidableEq, Repr

/-- Type `Service`: name and methods. -/
structure Service where
  Name : Str
  Methods : List Method
  deriving DecidableEq, Repr

/-! ## Package `bufio`: the scanner over the IDL file -/

/-- Constant `bufio.MaxScanTokenSize`, the size the scanner's buffer grows to. -/
def MaxScanTokenSize : Nat := 64 * 1024

/-- Number of bytes of a character in UTF-8. -/
def utf8Size (c : Char) : Nat :=
  if c.toNat < 0x80 then 1 else if c.toNat < 0x800 then 2 else if c.toNat < 0x10000 then 3 else 4

/-- Number of bytes of a string (of a file that is valid UTF-8). -/
def byteLen (s : Str) : Nat := (s.map utf8Size).sum

/-- Function `dropCR` of package `bufio`: drops one carriage return at the end. -/
def dropCR (l : Str) : Str := if l.getLast? = some '\r' then l.dropLast else l

/-- Worker of `scanLines`: `cur` is the line being read. A line that, with its newline, does
not fit the buffer (65536 bytes or more before the newline or the end of the file) makes
`Scan` return false with `ErrTooLong`: the loop of `main`, which never looks at
`scanner.Err()`, ends there. -/
def scanAux : Str → Str → List Str
  | cur, [] =>
    if cur.isEmpty then [] else if byteLen cur < MaxScanTokenSize then [dropCR cur] else []
  | cur, c :: cs =>
    if c = '\n' then
      if byteLen cur < MaxScanTokenSize then dropCR cur :: scanAux [] cs else []
    else scanAux (cur ++ [c]) cs

/-- The values of `scanner.Text()` over the successful calls of `scanner.Scan()` on a file
with the given content, for the default split function `bufio.ScanLines`. -/
def scanLines (text : Str) : List Str := scanAux [] text

/-! ## The parser of `main` -/

/-- The loop over the parameters, `method.Params[paramParts[1]] = paramParts[0]`. -/
def parseParams : List Str → GoMap Str → Except Panic (GoMap Str)
  | [], m => .ok m
  | param :: rest, m =>
    let paramParts := Fields param
    match index paramParts 1 with
    | .error e => .error e
    | .ok name =>
      match index paramParts 0 with
      | .error e => .error e
      | .ok ty => parseParams rest (mapSet m name ty)

/-- The branch of the loop body for a line containing `->`: builds the method. -/
def parseMethod (line : Str) : Except Panic Method := do
  let found := (FindStringSubmatch pattern line).getD []
  let name ← index found 1
  let first ← index name 0
  let name := if 'a'.toNat ≤ first.toNat ∧ first.toNat ≤ 'z'.toNat then Title name else name
  let group2 ← index found 2
  let params ← parseParams (Split group2 ',') []
  let group3 ← index found 3
  let returns := Fields group3
  let retName ← index returns 1
  let retType ← index returns 0
  pure { Name := name, Params := params, Returns := mapSet [] retName retType }

/-- The body of the scanning loop of `main`, for one line. -/
def parseLine (service : Service) (line : Str) : Except Panic Service :=
  if Contains line "service".toList then do
    let name ← index (Fields line) 1
    pure { service with Name := name }
  else if Contains line "->".toList then do
    let method ← parseMethod line
    pure { service with Methods := service.Methods ++ [method] }
  else pure service

/-- The loop body of `main` over the lines `scanner.Text()` delivered, in order, up to the
first panic. -/
def parseLines : Service → List Str → Except Panic Service
  | service, [] => .ok service
  | service, line :: rest =>
    match parseLine service line with
    | .error e => .error e
    | .ok service => parseLines service rest

/-- The scanning loop `for scanner.Scan() { line := scanner.Text(); ... }` of `main` on an
IDL file with the given content, starting from the empty `&Service{}`. -/
def parse (text : Str) : Except Panic Service :=
  parseLines { Name := [], Methods := [] } (scanLines text)

/-! ## Well-formed method declarations -/

/-- The text `t1 p1, t2 p2, ..., tk pk` of a parameter list given as (type, name) pairs. -/
def paramsText : List (Str × Str) → Str
  | [] => []
  | [(t, p)] => t ++ ' ' :: p
  | (t, p) :: rest => t ++ ' ' :: (p ++ ',' :: ' ' :: paramsText rest)

/-- A method declaration `n(t1 p1, ..., tk pk) -> (t r);`, parameters as (type, name) pairs. -/
structure Decl where
  name : Str
  params : List (Str × Str)
  retType : Str
  retName : Str
  deriving DecidableEq, Repr

/-- The IDL line of a declaration. -/
def Decl.line (d : Decl) : Str :=
  d.name ++ '(' :: (paramsText d.params ++
    ')' :: ' ' :: '-' :: '>' :: ' ' :: '(' :: (d.retType ++ ' ' :: (d.retName ++ [')', ';'])))

/-- An identifier: a non-empty run of word characters. -/
def isIdent (s : Str) : Bool := !s.isEmpty && s.all isWord

/-- All identifiers of a declaration are identifiers. -/
def Decl.wellFormed (d : Decl) : Bool :=
  isIdent d.name && d.params.all (fun tp => isIdent tp.1 && isIdent tp.2) &&
  isIdent d.retType && isIdent d.retName

/-- The exported form of a name: first character in upper case, the rest unchanged. -/
def exported : Str → Str
  | [] => []
  | c :: cs => c.toUpper :: cs

/-- The parameter map a declaration's parameters build, assigned in declaration order. -/
def paramMap (params : List (Str × Str)) : GoMap Str :=
  params.foldl (fun m tp => mapSet m tp.2 tp.1) []

/-- The method a declaration stands for. -/
def Decl.method (d : Decl) : Method :=
  { Name := exported d.name, Params := paramMap d.params,
    Returns := [(d.retName, d.retType)] }

/-! ## Package `text/template`, as far as the two stub templates use it -/

/-- Go string comparison `a <= b` (byte-wise, which on UTF-8 is code point-wise). -/
def strLe : Str → Str → Bool
  | [], _ => true
  | _ :: _, [] => false
  | a :: as, b :: bs =>
    if a.toNat < b.toNat then true else if b.toNat < a.toNat then false else strLe as bs

/-- Insertion of a key into a sorted list of keys. -/
def insertKey (k : Str) : List Str → List Str
  | [] => [k]
  | x :: xs => if strLe k x then k :: x :: xs else x :: insertKey k xs

/-- Sorting of the keys of a map, as `text/template` does before ranging over it. -/
def sortKeys : List Str → List Str
  | [] => []
  | k :: ks => insertKey k (sortKeys ks)

/-- The keys of a map, each once. -/
def mapKeys {V : Type} : GoMap V → List Str
  | [] => []
  | (k, _) :: m => if k ∈ mapKeys m then mapKeys m else k :: mapKeys m

/-- The entries `{{range $key, $value := m}}` visits: the keys in sorted order, each with the
value the map holds for it. -/
def mapRange {V : Type} (m : GoMap V) : List (Str × V) :=
  (sortKeys (mapKeys m)).filterMap (fun k => (mapGet m k).map (fun v => (k, v)))

/-- What the body of a `{{range $key, $value := ...}}` action can hold. -/
inductive Item where
  /-- Literal text. -/
  | text (s : Str)
  /-- Action `{{$key}}`. -/
  | key
  /-- Action `{{$value}}`. -/
  | value

/-- What the body of `{{range .Methods}}` can hold. -/
inductive Node where
  /-- Literal text. -/
  | text (s : Str)
  /-- Action `{{.Name}}`. -/
  | name
  /-- Action `{{range $key, $value := .Params}}body{{end}}`. -/
  | params (body : List Item)
  /-- Action `{{range $key, $value := .Returns}}body{{end}}`. -/
  | returns (body : List Item)

/-- A template of the shape `header{{range .Methods}}method{{end}}footer`. -/
structure Template where
  header : Str
  method : List Node
  footer : Str

/-- Execution of one item for one map entry. -/
def Item.exec (k v : Str) : Item → Str
  | .text s => s
  | .key => k
  | .value => v

/-- Execution of a `range` over a map. -/
def execRange (body : List Item) (m : GoMap Str) : Str :=
  ((mapRange m).map (fun kv => (body.map (Item.exec kv.1 kv.2)).flatten)).flatten

/-- Execution of one node for one method. -/
def Node.exec (m : Method) : Node → Str
  | .text s => s
  | .name => m.Name
  | .params body => execRange body m.Params
  | .returns body => execRange body m.Returns

/-- Method `(*Template).Execute` on a service. -/
def Template.Execute (t : Template) (service : Service) : Str :=
  t.header ++ (service.Methods.map (fun m => (t.method.map (Node.exec m)).flatten)).flatten ++ t.footer

/-- Variable `clientStubTemplate`, the client stub: `callRPC` and one function per method. -/
def clientStubTemplate : Template where
  header :=
    "\npackage stub\n\nimport (\n\t\"encoding/json\"\n\t\"errors\"\n\t\"net\"\n)\n\nfunc callRPC(method string, params map[string]interface\x7b\x7d) map[string]interface\x7b\x7d \x7b\n\tconn, err := net.Dial(\"tcp\", \"localhost:8080\")\n\tif err != nil \x7b\n\t\tpanic(err)\n\t\x7d\n\tdefer conn.Close()\n\n\trequest := map[string]interface\x7b\x7d\x7b\n\t\t\"method\": method,\n\t\t\"params\": params,\n\t\x7d\n\n\tencoder := json.NewEncoder(conn)\n\tencoder.Encode(request)\n\n\tdecoder := json.NewDecoder(conn)\n\tvar response map[string]interface\x7b\x7d\n\tdecoder.Decode(&response)\n\n\treturn response\n\x7d\n\n".toList
  method := [
    .text "\nfunc ".toList,
    .name,
    .text "(".toList,
    .params [.key, .text " ".toList, .value, .text ", ".toList],
    .text ")( ".toList,
    .returns [.value, .text ", error ".toList],
    .text ") \x7b\n\tvar err error\n\tparams := map[string]interface\x7b\x7d \x7b\n\t\t".toList,
    .params [.text "\"".toList, .key, .text "\": ".toList, .key, .text ",".toList],
    .text "\n\t\x7d\n\tresponse := callRPC(\"".toList,
    .name,
    .text "\", params)\n\t// checking if response contains error\n\tif _, ok := response[\"error\"]; ok \x7b\n\t\terr = errors.New(response[\"error\"].(string))\n\t\treturn -1, err\n\t\x7d\n\treturn ".toList,
    .returns [.text "response[\"".toList, .key, .text "\"].(".toList, .value, .text "), err ".toList],
    .text "\n\x7d\n".toList]
  footer :=
    "\n".toList

/-- Variable `serverStubTemplate`, the server stub: `HandleConnection` with one `case` per method. -/
def serverStubTemplate : Template where
  header :=
    "\npackage stub\n\nimport (\n\t\"encoding/json\"\n\t\"time\"\n\t\"net\"\n)\n\nfunc HandleConnection(conn net.Conn) \x7b\n\tconn.SetReadDeadline(time.Now().Add(5 * time.Second))\n\n\tdecoder := json.NewDecoder(conn)\n\tvar request map[string]interface\x7b\x7d\n\tdecoder.Decode(&request)\n\n\tmethod := request[\"method\"].(string)\n\tparams := request[\"params\"].(map[string]interface\x7b\x7d)\n\n\tvar response map[string]interface\x7b\x7d\n\n\tswitch method \x7b\n\t".toList
  method := [
    .text "\n\tcase \"".toList,
    .name,
    .text "\":\n\t\tresult, err := ".toList,
    .name,
    .text "(".toList,
    .params [.text "params[\"".toList, .key, .text "\"].(".toList, .value, .text "), ".toList],
    .text ")\n\n\t\tif err == nil \x7b\n\t\t\tresponse = map[string]interface\x7b\x7d\x7b\n\t\t\t\t\"result\": result,\n\t\t\t\x7d\n\t\t\x7d else \x7b\n\t\t\tresponse = map[string]interface\x7b\x7d\x7b\n\t\t\t\t\"error\": err.Error(),\n\t\t\t\x7d\n\t\t\x7d\n\t".toList]
  footer :=
    "\n\tdefault:\n\t\tresponse = map[string]interface\x7b\x7d\x7b\n\t\t\t\"error\": \"Invalid RPC Call Method\",\n\t\t\x7d\n\t\x7d\n\n\tencoder := json.NewEncoder(conn)\n\tencoder.Encode(response)\n\x7d\n\n// implmentation of Add method\nfunc Add(a float64, b float64) (float64, error) \x7b\n\treturn a + b, nil\n\x7d\n\n// implmentation of Sub method\nfunc Sub(a float64, b float64) (float64, error) \x7b\n\treturn a - b, nil\n\x7d\n".toList

/-- A file the generator writes. -/
structure File where
  path : Str
  content : Str
  deriving DecidableEq, Repr

/-- Function `addServiceToClient`: the client stub file of a service. -/
def addServiceToClient (service : Service) : File :=
  { path := "../client/stub/client_stub_".toList ++ service.Name ++ ".go".toList,
    content := clientStubTemplate.Execute service }

/-- Function `addServiceToServer`: the server stub file of a service. -/
def addServiceToServer (service : Service) : File :=
  { path := "../server/stub/server_stub_".toList ++ service.Name ++ ".go".toList,
    content := serverStubTemplate.Execute service }

/-- How a run of the generator ends: the stub files written, in order, and the panic that
ended the run early, if any. -/
structure Run where
  written : List File
  panicked : Option Panic
  deriving DecidableEq, Repr

namespace Generators

/-- Function `main` of the generator on an IDL file with the given content. A panic of the
parser ends the run before any stub is written. `canCreate` says for which paths `os.Create`
succeeds in the file system the generator runs in: the client stub is created and written
first, then the server stub, and a failed creation panics. Writes to a created file are taken
to succeed. -/
def main (canCreate : Str → Bool) (text : Str) : Run :=
  match parse text with
  | .error e => { written := [], panicked := some e }
  | .ok service =>
    if canCreate (addServiceToClient service).path then
      if canCreate (addServiceToServer service).path then
        { written := [addServiceToClient service, addServiceToServer service],
          panicked := none }
      else { written := [addServiceToClient service], panicked := some .fileCreate }
    else { written := [], panicked := some .fileCreate }

end Generators

/-! ## The generated stubs at run time -/

/-- A value `encoding/json` decodes into an `interface{}`. -/
inductive JVal where
  /-- JSON `null`, the nil interface. -/
  | null
  /-- A `bool`. -/
  | bool (b : Bool)
  /-- A `float64`, by its bit pattern. -/
  | num (bits : Nat)
  /-- A `string`. -/
  | str (s : Str)
  /-- A `[]interface{}`. -/
  | arr (xs : List JVal)
  /-- A `map[string]interface{}`. -/
  | obj (fields : List (Str × JVal))

/-- Type assertion `x.(string)` on a map element. -/
def assertString : Option JVal → Except Panic Str
  | some (.str s) => .ok s
  | _ => .error .typeAssertion

/-- Type assertion `x.(map[string]interface{})` on a map element. -/
def assertMap : Option JVal → Except Panic (GoMap JVal)
  | some (.obj m) => .ok m
  | _ => .error .typeAssertion

/-- Type assertion `x.(T)` on a map element, for a type `T` named in the IDL. Which non-nil
values have dynamic type `T` is given by `hasType`; an absent key and `null` are the nil
interface, on which every assertion fails. -/
def assertType (hasType : Str → JVal → Bool) (T : Str) : Option JVal → Except Panic JVal
  | none => .error .typeAssertion
  | some .null => .error .typeAssertion
  | some v => if hasType T v then .ok v else .error .typeAssertion

/-- What the generated package is compiled against: the dynamic typing of decoded values and
the business functions `Name(args...) (result, error)`, an error being its message. -/
structure Env where
  hasType : Str → JVal → Bool
  call : Str → List JVal → JVal × Option Str

/-- The arguments of the call in a `case`: `params["k"].(T)` for every entry the template
ranged over, left to right. -/
def evalArgs (env : Env) (params : GoMap JVal) : List (Str × Str) → Except Panic (List JVal)
  | [] => .ok []
  | (k, T) :: rest =>
    match assertType env.hasType T (mapGet params k) with
    | .error e => .error e
    | .ok v =>
      match evalArgs env params rest with
      | .error e => .error e
      | .ok vs => .ok (v :: vs)

/-- Whether a `float64` with this bit pattern is finite: its exponent bits are not all set. -/
def isFinite (bits : Nat) : Bool := (bits / 2 ^ 52) % 2048 != 2047

mutual

/-- Whether `encoding/json` encodes the value: it refuses the non-finite numbers. -/
def JVal.encodable : JVal → Bool
  | .null => true
  | .bool _ => true
  | .num bits => isFinite bits
  | .str _ => true
  | .arr xs => encodableList xs
  | .obj fields => encodableMap fields

/-- Whether all elements of a slice are encoded. -/
def encodableList : List JVal → Bool
  | [] => true
  | x :: xs => x.encodable && encodableList xs

/-- Whether all values of a map are encoded. -/
def encodableMap : List (Str × JVal) → Bool
  | [] => true
  | (_, v) :: fields => v.encodable && encodableMap fields

end

/-- What the handler leaves on the connection. -/
inductive Wire where
  /-- The encoding of the response map. -/
  | written (response : GoMap JVal)
  /-- Nothing: `Encode` failed, and its error is dropped. -/
  | nothing

/-- The last two lines of the handler, `encoder.Encode(response)` with the error dropped. The
encoder writes only a value it has encoded in full; the write to the connection is taken to
succeed. -/
def Encode (response : GoMap JVal) : Wire :=
  if encodableMap response then .written response else .nothing

/-- Function `HandleConnection` of the server stub generated for `service`, from the decoded
`request` (the nil map when decoding failed) to what it leaves on the connection. -/
def HandleConnection (env : Env) (service : Service) (request : GoMap JVal) :
    Except Panic Wire :=
  match assertString (mapGet request "method".toList) with
  | .error e => .error e
  | .ok method =>
    match assertMap (mapGet request "params".toList) with
    | .error e => .error e
    | .ok params =>
      match service.Methods.find? (fun m => m.Name = method) with
      | some m =>
        match evalArgs env params (mapRange m.Params) with
        | .error e => .error e
        | .ok args =>
          match env.call m.Name args with
          | (result, none) => .ok (Encode [("result".toList, result)])
          | (_, some err) => .ok (Encode [("error".toList, .str err)])
      | none => .ok (Encode [("error".toList, .str "Invalid RPC Call Method".toList)])

/-- What a generated client function returns. -/
inductive ClientResult where
  /-- The value and a nil error. -/
  | value (v : JVal)
  /-- The placeholder `-1` and the error with this message. -/
  | failure (msg : Str)

/-- The part after `callRPC` of the client function generated for a method whose `Returns`
holds the one entry `retName: retType`, on the response map `callRPC` returned. -/
def clientReturn (hasType : Str → JVal → Bool) (retName retType : Str)
    (response : GoMap JVal) : Except Panic ClientResult :=
  match mapGet response "error".toList with
  | some e =>
    match assertString (some e) with
    | .error p => .error p
    | .ok msg => .ok (.failure msg)
  | none =>
    match assertType hasType retType (mapGet response retName) with
    | .error p => .error p
    | .ok v => .ok (.value v)

/-! ## The server: accept loop and shutdown sequence of `server.go` -/

namespace Server

/-- Where the main goroutine stands: before the `select`, in the one-second wait, after
`ln.Close()`. -/
inductive Phase where
  | running
  | draining
  | stopped
  deriving DecidableEq, Repr

/-- The state of the server process. -/
structure State where
  phase : Phase
  /-- Whether `cancel()` was called, so `ctx.Done()` is readable. -/
  cancelled : Bool
  /-- Whether the listener is open. -/
  listening : Bool
  /-- Whether the accept goroutine is still in its loop. -/
  looping : Bool
  /-- The connections given to `go HandleConnection(conn)`, oldest first. -/
  handled : List Nat
  /-- How many times "Error in Accept" was logged. -/
  acceptErrors : Nat
  deriving DecidableEq, Repr

/-- What can happen. -/
inductive Event where
  /-- Call `ln.Accept()` returns a connection. -/
  | acceptOk (conn : Nat)
  /-- Call `ln.Accept()` returns an error. -/
  | acceptErr
  /-- A SIGINT or SIGTERM arrives on `stop`. -/
  | stopSignal
  /-- The heartbeat reporter signals on `lbDown`. -/
  | lbDown
  /-- The one-second timer fires. -/
  | graceElapsed
  deriving DecidableEq, Repr

/-- The state after `logger.Info("Server started")`. -/
def init : State :=
  { phase := .running, cancelled := false, listening := true, looping := true, handled := [],
    acceptErrors := 0 }

/-- One iteration of the accept loop, on what `ln.Accept()` returned (`none` for an error). -/
def acceptIteration (s : State) : Option Nat → State
  | none =>
    if s.cancelled then { s with looping := false }
    else { s with acceptErrors := s.acceptErrors + 1 }
  | some conn => { s with handled := s.handled ++ [conn] }

/-- The main goroutine from the `select` on: `cancel()`, then the wait. -/
def shutdown (s : State) : State := { s with cancelled := true, phase := .draining }

/-- The main goroutine after the wait: `ln.Close()`. -/
def closeListener (s : State) : State := { s with listening := false, phase := .stopped }

/-- One step of the process; `none` when the event cannot happen in the state (a closed
listener accepts nothing, a loop that returned accepts nothing, the timer fires once, during
the wait). A signal that arrives after the `select` has fired changes nothing: it stays in
the channel `stop`, or its sender blocks on `lbDown`. -/
def step (s : State) : Event → Option State
  | .acceptOk conn => if s.looping ∧ s.listening then some (acceptIteration s (some conn)) else none
  | .acceptErr => if s.looping then some (acceptIteration s none) else none
  | .stopSignal => if s.phase = .running then some (shutdown s) else some s
  | .lbDown => if s.phase = .running then some (shutdown s) else some s
  | .graceElapsed => if s.phase = .draining then some (closeListener s) else none

/-- A run of the process over a sequence of events. -/
def run : State → List Event → Option State
  | s, [] => some s
  | s, e :: es =>
    match step s e with
    | none => none
    | some s2 => run s2 es

/-- What holds of the context and the listener along every run: the context is cancelled
exactly once the controller has left `running`, and the listener is closed exactly once it
is `stopped`. -/
def Consistent (s : State) : Prop :=
  (s.cancelled = true ↔ s.phase ≠ .running) ∧ (s.listening = false ↔ s.phase = .stopped)

end Server

/-! ## Vocabulary of the statements -/

/-- The line `service <Name>` of an IDL file. -/
def serviceLine (name : Str) : Str := "service ".toList ++ name

/-- The content of the file that holds the given lines, each ended by a newline. -/
def fileOf (lines : List Str) : Str := (lines.map (fun l => l ++ ['\n'])).flatten

/-- The type of the last declaration of the parameter `p` in a parameter list. -/
def lastType : List (Str × Str) → Str → Option Str
  | [], _ => none
  | (t, q) :: rest, p =>
    match lastType rest p with
    | some t2 => some t2
    | none => if q = p then some t else none

/-- Equality of two Go maps: the same value, or absence, under every key. -/
def sameMap {V : Type} (a b : GoMap V) : Prop := ∀ k, mapGet a k = mapGet b k

/-- Equality of two methods as Go values. -/
def Method.same (a b : Method) : Prop :=
  a.Name = b.Name ∧ sameMap a.Params b.Params ∧ sameMap a.Returns b.Returns

/-- Equality of two services as Go values. -/
def Service.same (a b : Service) : Prop :=
  a.Name = b.Name ∧ List.Forall₂ Method.same a.Methods b.Methods

/-- The dynamic type of a decoded value, for the type names `float64`, `string` and `bool`;
under any other name used below (such as `int`) no decoded value has the type. -/
def builtinHasType (T : Str) : JVal → Bool
  | .num _ => T = "float64".toList
  | .str _ => T = "string".toList
  | .bool _ => T = "bool".toList
  | _ => false

/-- An environment for the examples: the typing above, and business functions that return
the number with bit pattern 5 and no error. -/
def exampleEnv : Env :=
  { hasType := builtinHasType, call := fun _ _ => (.num 5, none) }

/-- An environment whose business functions overflow: they return the `float64` +Inf (bit
pattern `0x7FF0000000000000`) and no error, as the `Add` of the server template does on
`1e308 + 1e308`. -/
def overflowEnv : Env :=
  { hasType := builtinHasType, call := fun _ _ => (.num 0x7FF0000000000000, none) }

/-- The service of `service Calc` with `add(float64 a, float64 b) -> (float64 result);`. -/
def calcService : Service :=
  { Name := "Calc".toList,
    Methods := [{ Name := "Add".toList,
                  Params := [("a".toList, "float64".toList), ("b".toList, "float64".toList)],
                  Returns := [("result".toList, "float64".toList)] }] }

/-- The service of `service Calc` with `add(float64 a, float64 b) -> (float64 sum);`. -/
def sumService : Service :=
  { Name := "Calc".toList,
    Methods := [{ Name := "Add".toList,
                  Params := [("a".toList, "float64".toList), ("b".toList, "float64".toList)],
                  Returns := [("sum".toList, "float64".toList)] }] }

/-- The request `{"method": "Add", "params": {"a": 2, "b": 3}}`, numbers by bit pattern. -/
def addRequest : GoMap JVal :=
  [("method".toList, .str "Add".toList),
   ("params".toList, .obj [("a".toList, .num 2), ("b".toList, .num 3)])]

/-- The declaration `add(int a, int b) -> (int result);`. -/
def addDecl : Decl :=
  { name := "add".toList, params := [("int".toList, "a".toList), ("int".toList, "b".toList)],
    retType := "int".toList, retName := "result".toList }

/-- The declaration `sub(int b, int a) -> (int result);`. -/
def subDecl : Decl :=
  { name := "sub".toList, params := [("int".toList, "b".toList), ("int".toList, "a".toList)],
    retType := "int".toList, retName := "result".toList }

/-- The declaration `add(int x, float64 x) -> (int result);`, one name declared twice. -/
def twiceDecl : Decl :=
  { name := "add".toList, params := [("int".toList, "x".toList), ("float64".toList, "x".toList)],
    retType := "int".toList, retName := "result".toList }

/-- The declaration `ping() -> (int r);`, without parameters. -/
def pingDecl : Decl :=
  { name := "ping".toList, params := [], retType := "int".toList, retName := "r".toList }

/-- The declaration `service_status(int a) -> (int r);`. -/
def statusDecl : Decl :=
  { name := "service_status".toList, params := [("int".toList, "a".toList)],
    retType := "int".toList, retName := "r".toList }

/-- The method `Sub` as parsed from `sub(int b, int a) -> (int result);`. -/
def subMethod : Method :=
  { Name := "Sub".toList, Params := [("b".toList, "int".toList), ("a".toList, "int".toList)],
    Returns := [("result".toList, "int".toList)] }

/-- The same method with its parameters laid out the other way round. -/
def subMethodSwapped : Method :=
  { Name := "Sub".toList, Params := [("a".toList, "int".toList), ("b".toList, "int".toList)],
    Returns := [("result".toList, "int".toList)] }

/-- The client function of a method, with its parameters `ps` and returns `rs` written out in
the order of the lists, as (name, type) pairs. -/
def clientFunction (name : Str) (ps rs : List (Str × Str)) : Str :=
  List.flatten [
    "\nfunc ".toList,
    name,
    "(".toList,
    (ps.map (fun kv => List.flatten [kv.1, " ".toList, kv.2, ", ".toList])).flatten,
    ")( ".toList,
    (rs.map (fun kv => List.flatten [kv.2, ", error ".toList])).flatten,
    ") \x7b\n\tvar err error\n\tparams := map[string]interface\x7b\x7d \x7b\n\t\t".toList,
    (ps.map (fun kv => List.flatten ["\"".toList, kv.1, "\": ".toList, kv.1, ",".toList])).flatten,
    "\n\t\x7d\n\tresponse := callRPC(\"".toList,
    name,
    "\", params)\n\t// checking if response contains error\n\tif _, ok := response[\"error\"]; ok \x7b\n\t\terr = errors.New(response[\"error\"].(string))\n\t\treturn -1, err\n\t\x7d\n\treturn ".toList,
    (rs.map (fun kv => List.flatten ["response[\"".toList, kv.1, "\"].(".toList, kv.2, "), err ".toList])).flatten,
    "\n\x7d\n".toList]

/-- The `case` of the handler for a method, with its parameters `ps` written out in the order
of the list, as (name, type) pairs. -/
def serverCase (name : Str) (ps : List (Str × Str)) : Str :=
  List.flatten [
    "\n\tcase \"".toList,
    name,
    "\":\n\t\tresult, err := ".toList,
    name,
    "(".toList,
    (ps.map (fun kv => List.flatten ["params[\"".toList, kv.1, "\"].(".toList, kv.2, "), ".toList])).flatten,
    ")\n\n\t\tif err == nil \x7b\n\t\t\tresponse = map[string]interface\x7b\x7d\x7b\n\t\t\t\t\"result\": result,\n\t\t\t\x7d\n\t\t\x7d else \x7b\n\t\t\tresponse = map[string]interface\x7b\x7d\x7b\n\t\t\t\t\"error\": err.Error(),\n\t\t\t\x7d\n\t\t\x7d\n\t".toList]

/-- The text the client template emits for `subMethod`. -/
def subClientText : Str :=
  "\nfunc Sub(a int, b int, )( int, error ) \x7b\n\tvar err error\n\tparams := map[string]interface\x7b\x7d \x7b\n\t\t\"a\": a,\"b\": b,\n\t\x7d\n\tresponse := callRPC(\"Sub\", params)\n\t// checking if response contains error\n\tif _, ok := response[\"error\"]; ok \x7b\n\t\terr = errors.New(response[\"error\"].(string))\n\t\treturn -1, err\n\t\x7d\n\treturn response[\"result\"].(int), err \n\x7d\n".toList

/-- The text the server template emits for `subMethod`. -/
def subServerText : Str :=
  "\n\tcase \"Sub\":\n\t\tresult, err := Sub(params[\"a\"].(int), params[\"b\"].(int), )\n\n\t\tif err == nil \x7b\n\t\t\tresponse = map[string]interface\x7b\x7d\x7b\n\t\t\t\t\"result\": result,\n\t\t\t\x7d\n\t\t\x7d else \x7b\n\t\t\tresponse = map[string]interface\x7b\x7d\x7b\n\t\t\t\t\"error\": err.Error(),\n\t\t\t\x7d\n\t\t\x7d\n\t".toList

/-! ## Lemmas on the string functions -/

theorem fieldsAux_word (w cur rest : Str) (hw : ∀ c ∈ w, isSpace c = false) :
    fieldsAux cur (w ++ rest) = fieldsAux (cur ++ w) rest := by
  induction w generalizing cur with
  | nil => simp
  | cons c w ih =>
    have hc : isSpace c = false := hw c (by simp)
    have hw2 : ∀ x ∈ w, isSpace x = false := fun x hx => hw x (by simp [hx])
    simp only [List.cons_append, fieldsAux, hc, List.append_eq, Bool.false_eq_true, if_false]
    rw [ih _ hw2]
    simp

theorem isWord_not_space (c : Char) (h : isWord c = true) : isSpace c = false := by
  simp only [isWord, isSpace, Bool.or_eq_true, Bool.and_eq_true, decide_eq_true_eq,
    beq_iff_eq, Bool.or_eq_false_iff, Bool.and_eq_false_iff, decide_eq_false_iff_not,
    beq_eq_false_iff_ne, ne_eq] at *
  omega


theorem fields_pair (t p : Str) (ht : isIdent t = true) (hp : isIdent p = true) :
    Fields (t ++ ' ' :: p) = [t, p] := by
  simp only [isIdent, Bool.and_eq_true, Bool.not_eq_true', List.all_eq_true] at ht hp
  have h1 : ∀ c ∈ t, isSpace c = false := fun c hc => isWord_not_space c (ht.2 c hc)
  have h2 : ∀ c ∈ p, isSpace c = false := fun c hc => isWord_not_space c (hp.2 c hc)
  have ht0 : t.isEmpty = false := ht.1
  have hp0 : p.isEmpty = false := hp.1
  unfold Fields
  rw [fieldsAux_word t [] _ h1]
  have hsp : isSpace ' ' = true := by decide
  simp only [List.nil_append, fieldsAux, hsp, if_true, ht0, Bool.false_eq_true, if_false]
  have := fieldsAux_word p [] [] h2
  simp only [List.append_nil, List.nil_append] at this
  rw [this]
  simp [fieldsAux, hp0]

theorem fields_space_pair (t p : Str) (ht : isIdent t = true) (hp : isIdent p = true) :
    Fields (' ' :: (t ++ ' ' :: p)) = [t, p] := by
  have h := fields_pair t p ht hp
  unfold Fields at h ⊢
  have hsp : isSpace ' ' = true := by decide
  simp only [fieldsAux, hsp, if_true, List.isEmpty_nil]
  exact h

theorem splitAux_run (sep : Char) (w cur rest : Str) (hw : ∀ c ∈ w, c ≠ sep) :
    splitAux sep cur (w ++ rest) = splitAux sep (cur ++ w) rest := by
  induction w generalizing cur with
  | nil => simp
  | cons c w ih =>
    have hc : c ≠ sep := hw c (by simp)
    have hw2 : ∀ x ∈ w, x ≠ sep := fun x hx => hw x (by simp [hx])
    simp only [List.cons_append, splitAux, hc, List.append_eq, if_false]
    rw [ih _ hw2]
    simp

theorem isWord_ne_comma (c : Char) (h : isWord c = true) : c ≠ ',' := by
  intro hc
  subst hc
  exact absurd h (by decide)

theorem isWord_notClose (c : Char) (h : isWord c = true) : notClose c = true := by
  have : c ≠ ')' := by
    intro hc
    subst hc
    exact absurd h (by decide)
  simp [notClose, this]


theorem split_last (seg : Str) (h : ∀ c ∈ seg, c ≠ ',') : Split seg ',' = [seg] := by
  have := splitAux_run ',' seg [] [] h
  simp only [List.append_nil, List.nil_append] at this
  simp [Split, this, splitAux]

theorem split_seg (seg rest : Str) (h : ∀ c ∈ seg, c ≠ ',') :
    Split (seg ++ ',' :: rest) ',' = seg :: Split rest ',' := by
  unfold Split
  rw [splitAux_run ',' seg [] _ h]
  simp [splitAux]

theorem ident_mem {s : Str} (h : isIdent s = true) : ∀ c ∈ s, isWord c = true := by
  simp only [isIdent, Bool.and_eq_true, List.all_eq_true] at h
  exact h.2

theorem ident_ne_nil {s : Str} (h : isIdent s = true) : s ≠ [] := by
  intro hs
  subst hs
  exact absurd h (by decide)

/-- One `type name` segment of a parameter list, after an optional blank, holds no comma. -/
theorem seg_no_comma (lead t p : Str) (hl : lead = [] ∨ lead = [' '])
    (ht : isIdent t = true) (hp : isIdent p = true) :
    ∀ c ∈ lead ++ (t ++ ' ' :: p), c ≠ ',' := by
  intro c hc
  simp only [List.mem_append, List.mem_cons] at hc
  rcases hc with hc | hc | hc | hc
  · rcases hl with hl | hl
    · simp [hl] at hc
    · simp only [hl, List.mem_singleton] at hc
      subst hc
      decide
  · exact isWord_ne_comma c (ident_mem ht c hc)
  · subst hc
    decide
  · exact isWord_ne_comma c (ident_mem hp c hc)

theorem fields_lead (lead t p : Str) (hl : lead = [] ∨ lead = [' '])
    (ht : isIdent t = true) (hp : isIdent p = true) :
    Fields (lead ++ (t ++ ' ' :: p)) = [t, p] := by
  rcases hl with hl | hl
  · subst hl
    simpa using fields_pair t p ht hp
  · subst hl
    simpa using fields_space_pair t p ht hp

/-- The parameter loop over the split text of a well-formed, non-empty parameter list assigns
every parameter in declaration order. -/
theorem parseParams_text (params : List (Str × Str)) (hne : params ≠ [])
    (hwf : ∀ tp ∈ params, isIdent tp.1 = true ∧ isIdent tp.2 = true) :
    ∀ (lead : Str) (m : GoMap Str), (lead = [] ∨ lead = [' ']) →
      parseParams (Split (lead ++ paramsText params) ',') m =
        .ok (params.foldl (fun m tp => mapSet m tp.2 tp.1) m) := by
  induction params with
  | nil => exact absurd rfl hne
  | cons tp rest ih =>
    intro lead m hl
    obtain ⟨t, p⟩ := tp
    have hid := hwf (t, p) (by simp)
    cases rest with
    | nil =>
      simp only [paramsText]
      rw [split_last _ (seg_no_comma lead t p hl hid.1 hid.2)]
      simp [parseParams, fields_lead lead t p hl hid.1 hid.2, index]
    | cons tp2 rest2 =>
      have hrest := ih (by simp) (fun x hx => hwf x (by simp [hx])) [' '] (mapSet m p t)
        (Or.inr rfl)
      have hsplit : lead ++ paramsText ((t, p) :: tp2 :: rest2) =
          (lead ++ (t ++ ' ' :: p)) ++ ',' :: ([' '] ++ paramsText (tp2 :: rest2)) := by
        simp [paramsText]
      rw [hsplit, split_seg _ _ (seg_no_comma lead t p hl hid.1 hid.2)]
      simp only [parseParams, fields_lead lead t p hl hid.1 hid.2, index, List.get?]
      simpa using hrest


/-! ## Lemmas on the pattern matcher -/

/-- A greedy loop that can take exactly the run `w` and whose continuation then succeeds
returns what the continuation returns. -/
theorem greedy_run {α : Type} (cls : Char → Bool) (k : Str → Str → Option α) (w rest : Str)
    (hw : ∀ c ∈ w, cls c = true) (hstop : ∀ c cs, rest = c :: cs → cls c = false)
    (got : Str) (r : α) (hk : k (got ++ w) rest = some r) :
    greedy cls k got (w ++ rest) = some r := by
  induction w generalizing got with
  | nil =>
    cases rest with
    | nil => simpa [greedy] using hk
    | cons c cs =>
      have := hstop c cs rfl
      simpa [greedy, this] using hk
  | cons c w ih =>
    have hc : cls c = true := hw c (by simp)
    have h := ih (fun x hx => hw x (by simp [hx])) (got ++ [c]) (by simpa using hk)
    simp only [List.cons_append, greedy, hc, if_true, List.append_eq]
    rw [h]

theorem paramsText_notClose (params : List (Str × Str))
    (hwf : ∀ tp ∈ params, isIdent tp.1 = true ∧ isIdent tp.2 = true) :
    ∀ c ∈ paramsText params, notClose c = true := by
  induction params with
  | nil => simp [paramsText]
  | cons tp rest ih =>
    obtain ⟨t, p⟩ := tp
    have hid := hwf (t, p) (by simp)
    have hrest := ih (fun x hx => hwf x (by simp [hx]))
    intro c hc
    cases rest with
    | nil =>
      simp only [paramsText, List.mem_append, List.mem_cons] at hc
      rcases hc with hc | hc | hc
      · exact isWord_notClose c (ident_mem hid.1 c hc)
      · subst hc; decide
      · exact isWord_notClose c (ident_mem hid.2 c hc)
    | cons tp2 rest2 =>
      simp only [paramsText, List.mem_append, List.mem_cons] at hc
      rcases hc with hc | hc | hc | hc | hc | hc
      · exact isWord_notClose c (ident_mem hid.1 c hc)
      · subst hc; decide
      · exact isWord_notClose c (ident_mem hid.2 c hc)
      · subst hc; decide
      · subst hc; decide
      · exact hrest c hc

theorem matchHere_char (c : Char) (ps : List Piece) (caps : List Str) (xs : Str) :
    matchHere (.char c :: ps) caps (c :: xs) = matchHere ps caps xs := by
  simp [matchHere]

theorem matchHere_star_run (cls : Char → Bool) (capture : Bool) (ps : List Piece)
    (caps : List Str) (w rest : Str) (r : List Str × Str)
    (hw : ∀ c ∈ w, cls c = true) (hstop : ∀ c cs, rest = c :: cs → cls c = false)
    (h : matchHere ps (if capture then caps ++ [w] else caps) rest = some r) :
    matchHere (.star cls capture :: ps) caps (w ++ rest) = some r := by
  simp only [matchHere]
  exact greedy_run cls _ w rest hw hstop [] r (by simpa using h)

theorem matchHere_plus_run (cls : Char → Bool) (capture : Bool) (ps : List Piece)
    (caps : List Str) (c : Char) (w rest : Str) (r : List Str × Str)
    (hw : ∀ x ∈ c :: w, cls x = true) (hstop : ∀ c cs, rest = c :: cs → cls c = false)
    (h : matchHere ps (if capture then caps ++ [c :: w] else caps) rest = some r) :
    matchHere (.plus cls capture :: ps) caps (c :: w ++ rest) = some r := by
  have hc : cls c = true := hw c (by simp)
  simp only [matchHere, List.cons_append, hc, if_true]
  exact greedy_run cls _ w rest (fun x hx => hw x (by simp [hx])) hstop [c] r (by simpa using h)

/-- The pattern matches a line `name(ptext) -> (rtext);` as a whole, with the three groups
`name`, `ptext` and `rtext`. -/
theorem find_line (name ptext rtext : Str) (hn : isIdent name = true)
    (hp : ∀ c ∈ ptext, notClose c = true) (hr : ∀ c ∈ rtext, notClose c = true) :
    FindStringSubmatch pattern
      (name ++ '(' :: (ptext ++ ')' :: ' ' :: '-' :: '>' :: ' ' :: '(' :: (rtext ++ [')', ';']))) =
      some [name ++ '(' :: (ptext ++ ')' :: ' ' :: '-' :: '>' :: ' ' :: '(' ::
        (rtext ++ [')', ';'])), name, ptext, rtext] := by
  cases name with
  | nil => exact absurd hn (by decide)
  | cons c cs =>
    have hw := ident_mem hn
    have hm : matchHere pattern []
        (c :: cs ++ '(' :: (ptext ++ ')' :: ' ' :: '-' :: '>' :: ' ' :: '(' ::
          (rtext ++ [')', ';']))) = some ([c :: cs, ptext, rtext], []) := by
      unfold pattern
      refine matchHere_plus_run isWord true _ [] c cs _ _ hw
        (fun x xs h => by injection h with h1 _; subst h1; decide) ?_
      rw [matchHere_char]
      refine matchHere_star_run notClose true _ _ ptext _ _ hp
        (fun x xs h => by injection h with h1 _; subst h1; decide) ?_
      rw [matchHere_char]
      refine matchHere_star_run reSpace false _ _ [' '] ('-' :: '>' :: ' ' :: '(' ::
        (rtext ++ [')', ';'])) _ (by decide)
        (fun x xs h => by injection h with h1 _; subst h1; decide) ?_
      rw [matchHere_char, matchHere_char]
      refine matchHere_star_run reSpace false _ _ [' '] ('(' :: (rtext ++ [')', ';'])) _
        (by decide) (fun x xs h => by injection h with h1 _; subst h1; decide) ?_
      rw [matchHere_char]
      refine matchHere_star_run notClose true _ _ rtext [')', ';'] _ hr
        (fun x xs h => by injection h with h1 _; subst h1; decide) ?_
      rw [matchHere_char, matchHere_char]
      simp [matchHere]
    have hm2 := hm
    simp only [List.cons_append] at hm2 ⊢
    simp only [FindStringSubmatch, hm2]
    simp


/-! ## Lemmas on the parser -/

theorem isSeparator_word (c : Char) (h : isWord c = true) : isSeparator c = false := by
  unfold isSeparator
  split
  · simp [h]
  · exact isWord_not_space c h

theorem titleAux_word (cs : Str) (prev : Char) (hprev : isWord prev = true)
    (hcs : ∀ x ∈ cs, isWord x = true) : titleAux prev cs = cs := by
  induction cs generalizing prev with
  | nil => rfl
  | cons c cs ih =>
    have hc : isWord c = true := hcs c (by simp)
    simp only [titleAux, isSeparator_word prev hprev, Bool.false_eq_true, if_false]
    rw [ih c hc (fun x hx => hcs x (by simp [hx]))]

/-- The name normalisation of the parser exports an identifier. -/
theorem title_ident (c : Char) (cs : Str) (h : isIdent (c :: cs) = true) :
    (if 'a'.toNat ≤ c.toNat ∧ c.toNat ≤ 'z'.toNat then Title (c :: cs) else c :: cs) =
      exported (c :: cs) := by
  have hw := ident_mem h
  have hc : isWord c = true := hw c (by simp)
  have hsp : isSeparator ' ' = true := by decide
  have ha : 'a'.toNat = 97 := by decide
  have hz : 'z'.toNat = 122 := by decide
  simp only [ha, hz, exported, Char.toUpper]
  split
  · next hlow =>
    simp only [Title, titleAux, hsp, if_true, toTitle]
    rw [titleAux_word cs c hc (fun x hx => hw x (by simp [hx]))]
    simp [hlow]
  · next hlow =>
    have : ¬ (c.toNat ≥ 97 ∧ c.toNat ≤ 122) := hlow
    simp [this]

theorem wellFormed_iff (d : Decl) : d.wellFormed = true ↔
    isIdent d.name = true ∧ (∀ tp ∈ d.params, isIdent tp.1 = true ∧ isIdent tp.2 = true) ∧
      isIdent d.retType = true ∧ isIdent d.retName = true := by
  simp only [Decl.wellFormed, Bool.and_eq_true, List.all_eq_true]
  tauto

/-- The method branch on the line of a well-formed declaration with at least one parameter
builds the declaration's method. -/
theorem parseMethod_line (d : Decl) (hwf : d.wellFormed = true) (hne : d.params ≠ []) :
    parseMethod d.line = .ok d.method := by
  obtain ⟨hn, hps, hrt, hrn⟩ := (wellFormed_iff d).1 hwf
  have hr : ∀ c ∈ d.retType ++ ' ' :: d.retName, notClose c = true := by
    intro c hc
    simp only [List.mem_append, List.mem_cons] at hc
    rcases hc with hc | hc | hc
    · exact isWord_notClose c (ident_mem hrt c hc)
    · subst hc; decide
    · exact isWord_notClose c (ident_mem hrn c hc)
  have hfind := find_line d.name (paramsText d.params) (d.retType ++ ' ' :: d.retName) hn
    (paramsText_notClose d.params hps) hr
  have hline : d.line = d.name ++ '(' :: (paramsText d.params ++
      ')' :: ' ' :: '-' :: '>' :: ' ' :: '(' :: ((d.retType ++ ' ' :: d.retName) ++ [')', ';'])) := by
    simp [Decl.line]
  have hpar := parseParams_text d.params hne hps [] [] (Or.inl rfl)
  simp only [List.nil_append] at hpar
  obtain ⟨c, cs, hname⟩ : ∃ c cs, d.name = c :: cs := by
    cases hd : d.name with
    | nil => exact absurd hd (ident_ne_nil hn)
    | cons c cs => exact ⟨c, cs, rfl⟩
  have htitle := title_ident c cs (hname ▸ hn)
  unfold parseMethod
  rw [hline, hfind]
  simp only [Option.getD, index, List.get?, hname, bind, Except.bind, htitle, hpar,
    fields_pair d.retType d.retName hrt hrn, pure, Except.pure, mapSet, Decl.method, paramMap]


/-! ## Lemmas on maps and on the order `range` visits them in -/

theorem mapGet_mapSet {V : Type} (m : GoMap V) (k : Str) (v : V) (key : Str) :
    mapGet (mapSet m k v) key = if k = key then some v else mapGet m key := by
  induction m with
  | nil => simp [mapSet, mapGet]
  | cons kv m ih =>
    obtain ⟨k0, v0⟩ := kv
    by_cases h : k0 = k
    · subst h
      by_cases h2 : k0 = key <;> simp [mapSet, mapGet, h2]
    · by_cases h2 : k0 = key
      · subst h2
        have h3 : ¬ k = k0 := fun e => h e.symm
        simp [mapSet, mapGet, h, h3]
      · simp [mapSet, mapGet, h, h2, ih]

theorem strLe_refl (a : Str) : strLe a a = true := by
  induction a with
  | nil => rfl
  | cons c a ih => simp [strLe, ih]

theorem strLe_total (a b : Str) : strLe a b = true ∨ strLe b a = true := by
  induction a generalizing b with
  | nil => exact Or.inl rfl
  | cons c a ih =>
    cases b with
    | nil => exact Or.inr rfl
    | cons d b =>
      simp only [strLe]
      rcases Nat.lt_trichotomy c.toNat d.toNat with h | h | h
      · simp [h]
      · have h1 : ¬ c.toNat < d.toNat := by omega
        have h2 : ¬ d.toNat < c.toNat := by omega
        simp only [h1, h2, if_false]
        exact ih b
      · have h1 : ¬ c.toNat < d.toNat := by omega
        simp [h, h1]

theorem strLe_trans (a b c : Str) (hab : strLe a b = true) (hbc : strLe b c = true) :
    strLe a c = true := by
  induction a generalizing b c with
  | nil => rfl
  | cons x a ih =>
    cases b with
    | nil => simp [strLe] at hab
    | cons y b =>
      cases c with
      | nil => simp [strLe] at hbc
      | cons z c =>
        simp only [strLe] at hab hbc ⊢
        by_cases hxy : x.toNat < y.toNat
        · by_cases hyz : y.toNat < z.toNat
          · have : x.toNat < z.toNat := by omega
            simp [this]
          · by_cases hzy : z.toNat < y.toNat
            · simp [hyz, hzy] at hbc
            · have : x.toNat < z.toNat := by omega
              simp [this]
        · by_cases hyx : y.toNat < x.toNat
          · simp [hxy, hyx] at hab
          · simp only [hxy, hyx, if_false] at hab
            by_cases hyz : y.toNat < z.toNat
            · have : x.toNat < z.toNat := by omega
              simp [this]
            · by_cases hzy : z.toNat < y.toNat
              · simp [hyz, hzy] at hbc
              · simp only [hyz, hzy, if_false] at hbc
                have h1 : ¬ x.toNat < z.toNat := by omega
                have h2 : ¬ z.toNat < x.toNat := by omega
                simp only [h1, h2, if_false]
                exact ih b c hab hbc

theorem strLe_antisymm (a b : Str) (hab : strLe a b = true) (hba : strLe b a = true) :
    a = b := by
  induction a generalizing b with
  | nil =>
    cases b with
    | nil => rfl
    | cons y b => simp [strLe] at hba
  | cons x a ih =>
    cases b with
    | nil => simp [strLe] at hab
    | cons y b =>
      simp only [strLe] at hab hba
      by_cases hxy : x.toNat < y.toNat
      · have : ¬ y.toNat < x.toNat := by omega
        simp [hxy, this] at hba
      · by_cases hyx : y.toNat < x.toNat
        · simp [hxy, hyx] at hab
        · simp only [hxy, hyx, if_false] at hab hba
          have hx : x = y := by
            apply Char.ext
            apply UInt32.ext
            have : x.toNat = y.toNat := by omega
            simpa [Char.toNat] using this
          rw [hx, ih b hab hba]

theorem insertKey_eq (k : Str) (l : List Str) :
    insertKey k l = List.orderedInsert (fun a b => strLe a b = true) k l := by
  induction l with
  | nil => rfl
  | cons x xs ih => simp [insertKey, List.orderedInsert, ih]

theorem sortKeys_eq (l : List Str) :
    sortKeys l = List.insertionSort (fun a b => strLe a b = true) l := by
  induction l with
  | nil => rfl
  | cons x xs ih => simp [sortKeys, List.insertionSort, ih, insertKey_eq]

theorem sortKeys_sorted (l : List Str) :
    List.Sorted (fun a b => strLe a b = true) (sortKeys l) := by
  rw [sortKeys_eq]
  haveI : IsTotal Str (fun a b => strLe a b = true) := ⟨strLe_total⟩
  haveI : IsTrans Str (fun a b => strLe a b = true) := ⟨strLe_trans⟩
  exact List.sorted_insertionSort _ l

theorem sortKeys_perm (l : List Str) : (sortKeys l).Perm l := by
  rw [sortKeys_eq]
  exact List.perm_insertionSort _ l

theorem mem_mapKeys {V : Type} (m : GoMap V) (k : Str) :
    k ∈ mapKeys m ↔ (mapGet m k).isSome = true := by
  induction m with
  | nil => simp [mapKeys, mapGet]
  | cons kv m ih =>
    obtain ⟨k0, v0⟩ := kv
    by_cases h : k0 = k
    · subst h
      by_cases hin : k0 ∈ mapKeys m <;> simp [mapKeys, mapGet, hin]
    · have h' : ¬ k = k0 := fun e => h e.symm
      by_cases hin : k0 ∈ mapKeys m <;> simp [mapKeys, mapGet, hin, h, h', ih]

theorem mapKeys_nodup {V : Type} (m : GoMap V) : (mapKeys m).Nodup := by
  induction m with
  | nil => simp [mapKeys]
  | cons kv m ih =>
    obtain ⟨k0, v0⟩ := kv
    by_cases hin : k0 ∈ mapKeys m <;> simp [mapKeys, hin, ih]

/-- Maps with the same content are ranged over in the same way, whatever their layout. -/
theorem mapRange_congr {V : Type} (m1 m2 : GoMap V) (h : ∀ k, mapGet m1 k = mapGet m2 k) :
    mapRange m1 = mapRange m2 := by
  have hperm : (mapKeys m1).Perm (mapKeys m2) := by
    rw [List.perm_ext_iff_of_nodup (mapKeys_nodup m1) (mapKeys_nodup m2)]
    intro k
    rw [mem_mapKeys, mem_mapKeys, h k]
  haveI : IsAntisymm Str (fun a b => strLe a b = true) := ⟨strLe_antisymm⟩
  have hsort : sortKeys (mapKeys m1) = sortKeys (mapKeys m2) :=
    List.eq_of_perm_of_sorted (((sortKeys_perm _).trans hperm).trans (sortKeys_perm _).symm)
      (sortKeys_sorted _) (sortKeys_sorted _)
  have hf : (fun k => (mapGet m1 k).map (fun v => (k, v))) =
      (fun k => (mapGet m2 k).map (fun v => (k, v))) := by
    funext k
    rw [h k]
  simp only [mapRange, hsort, hf]

theorem filterMap_keys {V : Type} (m : GoMap V) (l : List Str)
    (hl : ∀ k ∈ l, (mapGet m k).isSome = true) :
    (l.filterMap (fun k => (mapGet m k).map (fun v => (k, v)))).map Prod.fst = l := by
  induction l with
  | nil => rfl
  | cons k l ih =>
    have hk := hl k (by simp)
    obtain ⟨v, hv⟩ := Option.isSome_iff_exists.1 hk
    have := ih (fun x hx => hl x (by simp [hx]))
    simp [List.filterMap_cons, hv, this]

/-- The keys `range` visits are the keys of the map, sorted. -/
theorem mapRange_keys {V : Type} (m : GoMap V) :
    (mapRange m).map Prod.fst = sortKeys (mapKeys m) := by
  apply filterMap_keys
  intro k hk
  exact (mem_mapKeys m k).1 ((sortKeys_perm _).mem_iff.1 hk)

/-- The entries `range` visits are the entries of the map. -/
theorem mem_mapRange {V : Type} (m : GoMap V) (k : Str) (v : V) :
    (k, v) ∈ mapRange m ↔ mapGet m k = some v := by
  simp only [mapRange, List.mem_filterMap, Option.map_eq_some', Prod.mk.injEq]
  constructor
  · rintro ⟨k', _, v', hv', hk, hv⟩
    subst hk
    subst hv
    exact hv'
  · intro h
    refine ⟨k, ?_, v, h, rfl, rfl⟩
    apply (sortKeys_perm _).mem_iff.2
    rw [mem_mapKeys, h]
    rfl

/-- The keys `range` visits come in strictly ascending order. -/
theorem mapRange_ascending {V : Type} (m : GoMap V) :
    List.Pairwise (fun a b => strLe a b = true ∧ a ≠ b) ((mapRange m).map Prod.fst) := by
  rw [mapRange_keys]
  have hs : List.Pairwise (fun a b => strLe a b = true) (sortKeys (mapKeys m)) :=
    sortKeys_sorted _
  have hn : List.Pairwise (fun a b => a ≠ b) (sortKeys (mapKeys m)) :=
    (sortKeys_perm _).nodup_iff.2 (mapKeys_nodup m)
  exact hs.and hn

/-! ## Lemmas on the scanning loop -/

theorem startsWith_append (sub post : Str) : startsWith sub (sub ++ post) = true := by
  induction sub with
  | nil => rfl
  | cons c sub ih => simp [startsWith, ih]

theorem contains_append (pre sub post : Str) : Contains (pre ++ (sub ++ post)) sub = true := by
  induction pre with
  | nil =>
    cases h : sub ++ post with
    | nil =>
      have : sub = [] := (List.append_eq_nil.1 h).1
      simp [Contains, this]
    | cons c cs =>
      have hs := startsWith_append sub post
      rw [h] at hs
      simp [Contains, hs]
  | cons c pre ih => simp [Contains, ih]

theorem contains_arrow (d : Decl) : Contains d.line "->".toList = true := by
  have h : d.line = (d.name ++ '(' :: (paramsText d.params ++ [')', ' '])) ++
      ("->".toList ++ (' ' :: '(' :: (d.retType ++ ' ' :: (d.retName ++ [')', ';'])))) := by
    simp [Decl.line]
  rw [h]
  exact contains_append _ _ _

/-- The loop body on the line of a well-formed declaration with at least one parameter that
does not contain `service` appends the declaration's method. -/
theorem parseLine_decl (service : Service) (d : Decl) (hwf : d.wellFormed = true)
    (hne : d.params ≠ []) (hsvc : Contains d.line "service".toList = false) :
    parseLine service d.line =
      .ok { service with Methods := service.Methods ++ [d.method] } := by
  simp only [parseLine, hsvc, contains_arrow d, parseMethod_line d hwf hne, if_true,
    Bool.false_eq_true, if_false, bind, Except.bind, pure, Except.pure]

/-- The scanning loop over the lines of such declarations appends their methods in order. -/
theorem parseLines_decls (decls : List Decl) (service : Service)
    (h : ∀ d ∈ decls, d.wellFormed = true ∧ d.params ≠ [] ∧
      Contains d.line "service".toList = false) :
    parseLines service (decls.map Decl.line) =
      .ok { service with Methods := service.Methods ++ decls.map Decl.method } := by
  induction decls generalizing service with
  | nil => simp [parseLines]
  | cons d decls ih =>
    obtain ⟨hwf, hne, hsvc⟩ := h d (by simp)
    simp only [List.map_cons, parseLines, parseLine_decl service d hwf hne hsvc]
    rw [ih _ (fun x hx => h x (by simp [hx]))]
    simp

/-- The loop body on a `service <Name>` line sets the name. -/
theorem parseLine_service (service : Service) (name : Str) (hn : isIdent name = true) :
    parseLine service (serviceLine name) = .ok { service with Name := name } := by
  have hc : Contains (serviceLine name) "service".toList = true := by
    have := contains_append [] "service".toList (' ' :: name)
    simpa [serviceLine] using this
  have hf : Fields (serviceLine name) = ["service".toList, name] := by
    have h1 : isIdent "service".toList = true := by decide
    have := fields_pair "service".toList name h1 hn
    simpa [serviceLine] using this
  unfold parseLine
  rw [hc, hf]
  rfl

theorem mapGet_paramMap (params : List (Str × Str)) (m : GoMap Str) (p : Str) :
    mapGet (params.foldl (fun m tp => mapSet m tp.2 tp.1) m) p =
      match lastType params p with
      | some t => some t
      | none => mapGet m p := by
  induction params generalizing m with
  | nil => simp [lastType]
  | cons tp rest ih =>
    obtain ⟨t, q⟩ := tp
    simp only [List.foldl_cons, ih, lastType]
    cases lastType rest p with
    | some t2 => rfl
    | none =>
      simp only [mapGet_mapSet]
      by_cases h : q = p <;> simp [h]

/-- The parameter map of a declaration holds, under each name, the type of its last
declaration. -/
theorem mapGet_params (params : List (Str × Str)) (p : Str) :
    mapGet (paramMap params) p = lastType params p := by
  unfold paramMap
  rw [mapGet_paramMap]
  cases lastType params p <;> simp [mapGet]

theorem lastType_none (params : List (Str × Str)) (p : Str)
    (h : p ∉ params.map Prod.snd) : lastType params p = none := by
  induction params with
  | nil => rfl
  | cons tp rest ih =>
    obtain ⟨t, q⟩ := tp
    simp only [List.map_cons, List.mem_cons, not_or] at h
    have hq : ¬ q = p := fun e => h.1 e.symm
    simp [lastType, ih h.2, hq]

/-- With pairwise distinct parameter names, the last declaration of a name is its only one. -/
theorem lastType_nodup (params : List (Str × Str)) (hn : (params.map Prod.snd).Nodup)
    (p t : Str) : lastType params p = some t ↔ (t, p) ∈ params := by
  induction params with
  | nil => simp [lastType]
  | cons tp rest ih =>
    obtain ⟨t0, q⟩ := tp
    simp only [List.map_cons, List.nodup_cons] at hn
    have ih2 := ih hn.2
    by_cases hq : q = p
    · subst hq
      have hnone := lastType_none rest q hn.1
      have hnot : ∀ t, (t, q) ∉ rest := fun t ht =>
        hn.1 (List.mem_map.2 ⟨(t, q), ht, rfl⟩)
      simp only [lastType, hnone, if_true, Option.some.injEq, List.mem_cons, Prod.mk.injEq,
        and_true]
      constructor
      · intro h; exact Or.inl h.symm
      · rintro (h | h)
        · exact h.symm
        · exact absurd h (hnot t)
    · have hne : ¬ ((t, p) = (t0, q)) := by
        intro e
        injection e with _ e2
        exact hq e2.symm
      simp only [lastType, hq, if_false, List.mem_cons, hne, false_or]
      rw [← ih2]
      cases lastType rest p <;> simp

/-! ## Lemmas on the scanner -/

theorem scanAux_line (l : Str) (hl : ∀ c ∈ l, c ≠ '\n') (cur rest : Str) :
    scanAux cur (l ++ '\n' :: rest) =
      if byteLen (cur ++ l) < MaxScanTokenSize then dropCR (cur ++ l) :: scanAux [] rest
      else [] := by
  induction l generalizing cur with
  | nil => simp [scanAux]
  | cons c l ih =>
    have hc : c ≠ '\n' := hl c (by simp)
    simp only [List.cons_append, scanAux, hc, if_false, List.append_eq]
    rw [ih (fun x hx => hl x (by simp [hx]))]
    simp

/-- The scanner delivers the lines of a file whose lines hold no newline, do not end in a
carriage return and are shorter than 65536 bytes. -/
theorem scanLines_fileOf (lines : List Str)
    (h : ∀ l ∈ lines, (∀ c ∈ l, c ≠ '\n') ∧ dropCR l = l ∧ byteLen l < MaxScanTokenSize) :
    scanLines (fileOf lines) = lines := by
  induction lines with
  | nil => rfl
  | cons l lines ih =>
    obtain ⟨h1, h2, h3⟩ := h l (by simp)
    have ih2 := ih (fun x hx => h x (by simp [hx]))
    unfold scanLines at ih2 ⊢
    have hf : fileOf (l :: lines) = l ++ '\n' :: fileOf lines := by
      simp [fileOf]
    rw [hf, scanAux_line l h1 [] _]
    simp only [List.nil_append, h3, if_true, h2, ih2]

theorem dropCR_of_last (l : Str) (c : Char) (hc : c ≠ '\r') : dropCR (l ++ [c]) = l ++ [c] := by
  have : ¬ (c = '\r') := hc
  simp [dropCR, this]

theorem paramsText_forall (P : Char → Prop) (hw : ∀ c, isWord c = true → P c) (hs : P ' ')
    (hc : P ',') (params : List (Str × Str))
    (hwf : ∀ tp ∈ params, isIdent tp.1 = true ∧ isIdent tp.2 = true) :
    ∀ c ∈ paramsText params, P c := by
  induction params with
  | nil => simp [paramsText]
  | cons tp rest ih =>
    obtain ⟨t, p⟩ := tp
    have hid := hwf (t, p) (by simp)
    have hrest := ih (fun x hx => hwf x (by simp [hx]))
    intro c hmem
    cases rest with
    | nil =>
      simp only [paramsText, List.mem_append, List.mem_cons] at hmem
      rcases hmem with hmem | hmem | hmem
      · exact hw c (ident_mem hid.1 c hmem)
      · subst hmem; exact hs
      · exact hw c (ident_mem hid.2 c hmem)
    | cons tp2 rest2 =>
      simp only [paramsText, List.mem_append, List.mem_cons] at hmem
      rcases hmem with hmem | hmem | hmem | hmem | hmem | hmem
      · exact hw c (ident_mem hid.1 c hmem)
      · subst hmem; exact hs
      · exact hw c (ident_mem hid.2 c hmem)
      · subst hmem; exact hc
      · subst hmem; exact hs
      · exact hrest c hmem

theorem isWord_ne_newline (c : Char) (h : isWord c = true) : c ≠ '\n' := by
  intro hc
  subst hc
  exact absurd h (by decide)

theorem isWord_ne_return (c : Char) (h : isWord c = true) : c ≠ '\r' := by
  intro hc
  subst hc
  exact absurd h (by decide)

/-- The line of a well-formed declaration reaches the loop body as it is, if it is shorter
than 65536 bytes. -/
theorem decl_line_scans (d : Decl) (hwf : d.wellFormed = true)
    (hlen : byteLen d.line < MaxScanTokenSize) :
    (∀ c ∈ d.line, c ≠ '\n') ∧ dropCR d.line = d.line ∧ byteLen d.line < MaxScanTokenSize := by
  obtain ⟨hn, hps, hrt, hrn⟩ := (wellFormed_iff d).1 hwf
  refine ⟨?_, ?_, hlen⟩
  · intro c hc
    simp only [Decl.line, List.mem_append, List.mem_cons, List.mem_singleton,
      List.not_mem_nil, or_false] at hc
    rcases hc with hc | hc | hc | hc | hc | hc | hc | hc | hc | hc | hc | hc | hc | hc
    · exact isWord_ne_newline c (ident_mem hn c hc)
    · subst hc; decide
    · exact paramsText_forall (fun c => c ≠ '\n') isWord_ne_newline (by decide) (by decide)
        d.params hps c hc
    · subst hc; decide
    · subst hc; decide
    · subst hc; decide
    · subst hc; decide
    · subst hc; decide
    · subst hc; decide
    · exact isWord_ne_newline c (ident_mem hrt c hc)
    · subst hc; decide
    · exact isWord_ne_newline c (ident_mem hrn c hc)
    · subst hc; decide
    · subst hc; decide
  · have hline : d.line = (d.name ++ '(' :: (paramsText d.params ++
        ')' :: ' ' :: '-' :: '>' :: ' ' :: '(' :: (d.retType ++ ' ' :: (d.retName ++ [')'])))) ++
        [';'] := by
      simp [Decl.line]
    rw [hline]
    exact dropCR_of_last _ ';' (by decide)

/-- The line `service <Name>` reaches the loop body as it is, if it is shorter than 65536
bytes. -/
theorem service_line_scans (name : Str) (hn : isIdent name = true)
    (hlen : byteLen (serviceLine name) < MaxScanTokenSize) :
    (∀ c ∈ serviceLine name, c ≠ '\n') ∧ dropCR (serviceLine name) = serviceLine name ∧
      byteLen (serviceLine name) < MaxScanTokenSize := by
  refine ⟨?_, ?_, hlen⟩
  · intro c hc
    simp only [serviceLine, List.mem_append] at hc
    rcases hc with hc | hc
    · intro e
      subst e
      exact absurd hc (by decide)
    · exact isWord_ne_newline c (ident_mem hn c hc)
  · obtain ⟨init, last, hlast⟩ : ∃ init last, name = init ++ [last] := by
      rcases List.eq_nil_or_concat name with h | ⟨init, last, h⟩
      · exact absurd h (ident_ne_nil hn)
      · exact ⟨init, last, by simpa using h⟩
    have hw : isWord last = true := ident_mem hn last (by simp [hlast])
    have : serviceLine name = ("service ".toList ++ init) ++ [last] := by
      simp [serviceLine, hlast]
    rw [this]
    exact dropCR_of_last _ last (isWord_ne_return last hw)

/-! ## Lemmas on the generated handler -/

theorem assertType_ok_iff (hasType : Str → JVal → Bool) (T : Str) (o : Option JVal) :
    (∃ w, assertType hasType T o = .ok w) ↔
      ∃ v, o = some v ∧ v ≠ .null ∧ hasType T v = true := by
  cases o with
  | none => simp [assertType]
  | some v =>
    cases v <;> simp [assertType] <;>
    · constructor
      · rintro ⟨w, h⟩
        split at h
        · assumption
        · cases h
      · intro h
        simp [h]

theorem assertType_error (hasType : Str → JVal → Bool) (T : Str) (o : Option JVal)
    (e : Panic) (h : assertType hasType T o = .error e) : e = .typeAssertion := by
  cases o with
  | none => simp [assertType] at h; exact h.symm
  | some v =>
    cases v <;> simp only [assertType] at h <;> first
      | (injection h with h; exact h.symm)
      | (split at h
         · cases h
         · injection h with h; exact h.symm)

theorem evalArgs_error (env : Env) (params : GoMap JVal) (l : List (Str × Str)) (e : Panic)
    (h : evalArgs env params l = .error e) : e = .typeAssertion := by
  induction l with
  | nil => simp [evalArgs] at h
  | cons kt rest ih =>
    obtain ⟨k, T⟩ := kt
    simp only [evalArgs] at h
    cases h1 : assertType env.hasType T (mapGet params k) with
    | error e1 =>
      rw [h1] at h
      injection h with h
      subst h
      exact assertType_error _ _ _ _ h1
    | ok v =>
      rw [h1] at h
      cases h2 : evalArgs env params rest with
      | error e2 =>
        rw [h2] at h
        injection h with h
        subst h
        exact ih h2
      | ok vs =>
        rw [h2] at h
        cases h

theorem evalArgs_ok_iff (env : Env) (params : GoMap JVal) (l : List (Str × Str)) :
    (∃ vs, evalArgs env params l = .ok vs) ↔
      ∀ k T, (k, T) ∈ l → ∃ v, mapGet params k = some v ∧ v ≠ .null ∧
        env.hasType T v = true := by
  induction l with
  | nil => simp [evalArgs]
  | cons kt rest ih =>
    obtain ⟨k0, T0⟩ := kt
    have hA := assertType_ok_iff env.hasType T0 (mapGet params k0)
    constructor
    · rintro ⟨vs, h⟩
      simp only [evalArgs] at h
      cases h1 : assertType env.hasType T0 (mapGet params k0) with
      | error e1 => rw [h1] at h; cases h
      | ok v =>
        rw [h1] at h
        cases h2 : evalArgs env params rest with
        | error e2 => rw [h2] at h; cases h
        | ok ws =>
          intro k T hmem
          simp only [List.mem_cons, Prod.mk.injEq] at hmem
          rcases hmem with ⟨hk, hT⟩ | hmem
          · subst hk; subst hT
            exact hA.1 ⟨v, h1⟩
          · exact ih.1 ⟨ws, h2⟩ k T hmem
    · intro h
      obtain ⟨v, hv⟩ := hA.2 (h k0 T0 (by simp))
      obtain ⟨ws, hws⟩ := ih.2 (fun k T hm => h k T (by simp [hm]))
      exact ⟨v :: ws, by simp [evalArgs, hv, hws]⟩

theorem assertString_ok_iff (o : Option JVal) (s : Str) :
    assertString o = .ok s ↔ o = some (.str s) := by
  cases o with
  | none => simp [assertString]
  | some v => cases v <;> simp [assertString]

theorem assertString_error (o : Option JVal) (e : Panic) (h : assertString o = .error e) :
    e = .typeAssertion := by
  cases o with
  | none => simp [assertString] at h; exact h.symm
  | some v => cases v <;> simp [assertString] at h <;> exact h.symm

theorem assertMap_ok_iff (o : Option JVal) (m : GoMap JVal) :
    assertMap o = .ok m ↔ o = some (.obj m) := by
  cases o with
  | none => simp [assertMap]
  | some v => cases v <;> simp [assertMap]

theorem assertMap_error (o : Option JVal) (e : Panic) (h : assertMap o = .error e) :
    e = .typeAssertion := by
  cases o with
  | none => simp [assertMap] at h; exact h.symm
  | some v => cases v <;> simp [assertMap] at h <;> exact h.symm

/-- The handler either encodes a response or panics at a type assertion. -/
theorem HandleConnection_cases (env : Env) (service : Service) (request : GoMap JVal) :
    HandleConnection env service request = .error .typeAssertion ∨
      ∃ response, HandleConnection env service request = .ok response := by
  cases h1 : assertString (mapGet request "method".toList) with
  | error e =>
    left
    simp only [HandleConnection, h1, assertString_error _ _ h1]
  | ok method =>
    cases h2 : assertMap (mapGet request "params".toList) with
    | error e =>
      left
      simp only [HandleConnection, h1, h2, assertMap_error _ _ h2]
    | ok params =>
      cases h3 : service.Methods.find? (fun m => m.Name = method) with
      | none =>
        right
        simp only [HandleConnection, h1, h2, h3]
        exact ⟨_, rfl⟩
      | some m =>
        cases h4 : evalArgs env params (mapRange m.Params) with
        | error e =>
          left
          simp only [HandleConnection, h1, h2, h3, h4, evalArgs_error _ _ _ _ h4]
        | ok args =>
          right
          simp only [HandleConnection, h1, h2, h3, h4]
          rcases h5 : env.call m.Name args with ⟨result, _ | err⟩
          · exact ⟨_, rfl⟩
          · exact ⟨_, rfl⟩

theorem encodableMap_error (msg : Str) :
    encodableMap [("error".toList, JVal.str msg)] = true :=
  rfl

theorem encodableMap_result (v : JVal) :
    encodableMap [("result".toList, v)] = v.encodable := by
  show (v.encodable && true) = v.encodable
  simp

theorem Encode_error (msg : Str) :
    Encode [("error".toList, JVal.str msg)] = .written [("error".toList, JVal.str msg)] := by
  unfold Encode
  rw [encodableMap_error]
  rfl

/-! ## The generated handler and client (C4, C5, C9) -/

/-- C4, as stated, fails: a request naming the unregistered method `Unknown` and carrying no
`params` field makes the handler of the `Calc` service panic at the `params` type assertion
instead of answering. -/
theorem unknown_method_without_params_panics :
    "Unknown".toList ∉ calcService.Methods.map Method.Name ∧
    HandleConnection exampleEnv calcService [("method".toList, .str "Unknown".toList)] =
      .error .typeAssertion :=
  ⟨by decide, rfl⟩

/-- C4, amended: for every decoded request whose `method` is a string that is not a method
name of the service and whose `params` field holds an object, `HandleConnection` encodes
exactly the response `{"error": "Invalid RPC Call Method"}`. -/
theorem HandleConnection_unknown_method (env : Env) (service : Service)
    (request : GoMap JVal) (method : Str) (params : GoMap JVal)
    (hm : mapGet request "method".toList = some (.str method))
    (hp : mapGet request "params".toList = some (.obj params))
    (hun : ∀ m ∈ service.Methods, m.Name ≠ method) :
    HandleConnection env service request =
      .ok (.written [("error".toList, .str "Invalid RPC Call Method".toList)]) := by
  have h1 : assertString (mapGet request "method".toList) = .ok method := by
    rw [hm]; rfl
  have h2 : assertMap (mapGet request "params".toList) = .ok params := by
    rw [hp]; rfl
  have h3 : service.Methods.find? (fun m => m.Name = method) = none := by
    rw [List.find?_eq_none]
    intro m hmem
    simpa using hun m hmem
  simp only [HandleConnection, h1, h2, h3, Encode_error]

/-- C4, amended, at the request `{"method": "Unknown", "params": {}}` to the `Calc`
service. -/
theorem HandleConnection_unknown_method_witness :
    HandleConnection exampleEnv calcService
      [("method".toList, .str "Unknown".toList), ("params".toList, .obj [])] =
      .ok (.written [("error".toList, .str "Invalid RPC Call Method".toList)]) :=
  HandleConnection_unknown_method exampleEnv calcService _ "Unknown".toList [] rfl rfl
    (by
      intro m hmem
      simp only [calcService, List.mem_singleton] at hmem
      subst hmem
      decide)

/-- C5, as stated, fails: on an undecodable envelope (the request map stays nil), on a
non-string `method`, on a `params` that is not an object, on a missing parameter of the
registered method `Add` and on a parameter of the wrong type, the handler of the `Calc`
service panics at a type assertion. -/
theorem malformed_requests_panic :
    HandleConnection exampleEnv calcService [] = .error .typeAssertion ∧
    HandleConnection exampleEnv calcService
      [("method".toList, .num 1), ("params".toList, .obj [])] = .error .typeAssertion ∧
    HandleConnection exampleEnv calcService
      [("method".toList, .str "Add".toList), ("params".toList, .str "x".toList)] =
      .error .typeAssertion ∧
    HandleConnection exampleEnv calcService
      [("method".toList, .str "Add".toList), ("params".toList, .obj [("a".toList, .num 2)])] =
      .error .typeAssertion ∧
    HandleConnection exampleEnv calcService
      [("method".toList, .str "Add".toList),
       ("params".toList, .obj [("a".toList, .num 2), ("b".toList, .str "3".toList)])] =
      .error .typeAssertion :=
  ⟨rfl, rfl, rfl, rfl, rfl⟩

/-- A well-typed request whose business function returns +Inf: the handler does not panic,
the encoder refuses the response and nothing is written. -/
theorem overflowing_result_is_not_written :
    HandleConnection overflowEnv calcService addRequest = .ok .nothing :=
  rfl

/-- C5, amended: `HandleConnection` reaches no failing type assertion exactly when the
decoded request holds a string `method` and an object `params` and, if the method is
registered, `params` holds for each of its parameters a non-null value of the asserted type;
on every other input - an undecodable envelope, a missing or non-string `method`, a missing
or non-object `params`, a missing or wrongly typed parameter - it panics at a type assertion.
Where it does not panic it hands a response to the encoder: what is written is an error
response or a result response that `encoding/json` accepts, and nothing at all is written
(the `Encode` error being dropped) only when a business function returned, without error, a
result that `encoding/json` refuses. -/
theorem HandleConnection_outcome (env : Env) (service : Service) (request : GoMap JVal) :
    ((∃ wire, HandleConnection env service request = .ok wire) ↔
      ∃ method params,
        mapGet request "method".toList = some (.str method) ∧
        mapGet request "params".toList = some (.obj params) ∧
        ∀ m, service.Methods.find? (fun m => m.Name = method) = some m →
          ∀ k T, (k, T) ∈ mapRange m.Params →
            ∃ v, mapGet params k = some v ∧ v ≠ .null ∧ env.hasType T v = true) ∧
    ((¬ ∃ wire, HandleConnection env service request = .ok wire) ↔
      HandleConnection env service request = .error .typeAssertion) ∧
    (∀ response, HandleConnection env service request = .ok (.written response) →
      encodableMap response = true ∧
      ((∃ msg, response = [("error".toList, .str msg)]) ∨
        ∃ v, response = [("result".toList, v)])) ∧
    (HandleConnection env service request = .ok .nothing →
      ∃ m args v, m ∈ service.Methods ∧ env.call m.Name args = (v, none) ∧
        v.encodable = false) := by
  have hwritten : ∀ r r2 : GoMap JVal, Encode r = .written r2 →
      r2 = r ∧ encodableMap r = true := by
    intro r r2 he
    unfold Encode at he
    split at he
    · next hok =>
      injection he with he
      exact ⟨he.symm, hok⟩
    · cases he
  have hnothing : ∀ r : GoMap JVal, Encode r = .nothing → encodableMap r = false := by
    intro r he
    unfold Encode at he
    split at he
    · cases he
    · next hno => simpa using hno
  refine ⟨?_, ?_, ?_, ?_⟩
  · constructor
    · rintro ⟨wire, h⟩
      cases h1 : assertString (mapGet request "method".toList) with
      | error e => exact absurd h (by simp only [HandleConnection, h1]; simp)
      | ok method =>
        cases h2 : assertMap (mapGet request "params".toList) with
        | error e => exact absurd h (by simp only [HandleConnection, h1, h2]; simp)
        | ok params =>
          refine ⟨method, params, (assertString_ok_iff _ _).1 h1,
            (assertMap_ok_iff _ _).1 h2, ?_⟩
          intro m hfind
          cases h4 : evalArgs env params (mapRange m.Params) with
          | error e =>
            exact absurd h (by simp only [HandleConnection, h1, h2, hfind, h4]; simp)
          | ok args => exact (evalArgs_ok_iff env params _).1 ⟨args, h4⟩
    · rintro ⟨method, params, hm, hp, hargs⟩
      have h1 : assertString (mapGet request "method".toList) = .ok method := by
        rw [hm]; rfl
      have h2 : assertMap (mapGet request "params".toList) = .ok params := by
        rw [hp]; rfl
      cases h3 : service.Methods.find? (fun m => m.Name = method) with
      | none =>
        simp only [HandleConnection, h1, h2, h3]
        exact ⟨_, rfl⟩
      | some m =>
        obtain ⟨args, h4⟩ := (evalArgs_ok_iff env params _).2 (hargs m h3)
        simp only [HandleConnection, h1, h2, h3, h4]
        rcases h5 : env.call m.Name args with ⟨result, _ | err⟩
        · exact ⟨_, rfl⟩
        · exact ⟨_, rfl⟩
  · constructor
    · intro h
      rcases HandleConnection_cases env service request with hc | hc
      · exact hc
      · exact absurd hc h
    · rintro h ⟨wire, hr⟩
      rw [h] at hr
      cases hr
  · intro response h
    cases h1 : assertString (mapGet request "method".toList) with
    | error e => exact absurd h (by simp only [HandleConnection, h1]; simp)
    | ok method =>
      cases h2 : assertMap (mapGet request "params".toList) with
      | error e => exact absurd h (by simp only [HandleConnection, h1, h2]; simp)
      | ok params =>
        cases h3 : service.Methods.find? (fun m => m.Name = method) with
        | none =>
          simp only [HandleConnection, h1, h2, h3, Except.ok.injEq] at h
          obtain ⟨hr, he⟩ := hwritten _ _ h
          exact ⟨hr ▸ he, Or.inl ⟨_, hr⟩⟩
        | some m =>
          cases h4 : evalArgs env params (mapRange m.Params) with
          | error e =>
            exact absurd h (by simp only [HandleConnection, h1, h2, h3, h4]; simp)
          | ok args =>
            simp only [HandleConnection, h1, h2, h3, h4] at h
            rcases h5 : env.call m.Name args with ⟨result, _ | err⟩
            · rw [h5] at h
              simp only [Except.ok.injEq] at h
              obtain ⟨hr, he⟩ := hwritten _ _ h
              exact ⟨hr ▸ he, Or.inr ⟨_, hr⟩⟩
            · rw [h5] at h
              simp only [Except.ok.injEq] at h
              obtain ⟨hr, he⟩ := hwritten _ _ h
              exact ⟨hr ▸ he, Or.inl ⟨_, hr⟩⟩
  · intro h
    cases h1 : assertString (mapGet request "method".toList) with
    | error e => exact absurd h (by simp only [HandleConnection, h1]; simp)
    | ok method =>
      cases h2 : assertMap (mapGet request "params".toList) with
      | error e => exact absurd h (by simp only [HandleConnection, h1, h2]; simp)
      | ok params =>
        cases h3 : service.Methods.find? (fun m => m.Name = method) with
        | none =>
          simp only [HandleConnection, h1, h2, h3, Except.ok.injEq, Encode_error] at h
          cases h
        | some m =>
          cases h4 : evalArgs env params (mapRange m.Params) with
          | error e =>
            exact absurd h (by simp only [HandleConnection, h1, h2, h3, h4]; simp)
          | ok args =>
            simp only [HandleConnection, h1, h2, h3, h4] at h
            rcases h5 : env.call m.Name args with ⟨result, _ | err⟩
            · rw [h5] at h
              simp only [Except.ok.injEq] at h
              have he := hnothing _ h
              rw [encodableMap_result] at he
              exact ⟨m, args, result, List.mem_of_find?_eq_some h3, h5, he⟩
            · rw [h5] at h
              simp only [Except.ok.injEq, Encode_error] at h
              cases h

/-- C9: the client function generated for `add(float64 a, float64 b) -> (float64 sum);`
panics on the very response the generated server produces on success: the server writes the
value under `result`, the client reads it under the declared return name `sum`. Only with
the return value named `result` does the client return the value. -/
theorem client_reads_declared_return_name :
    parse "service Calc\nadd(float64 a, float64 b) -> (float64 sum);\n".toList =
      .ok sumService ∧
    HandleConnection exampleEnv sumService addRequest =
      .ok (.written [("result".toList, .num 5)]) ∧
    clientReturn builtinHasType "sum".toList "float64".toList [("result".toList, .num 5)] =
      .error .typeAssertion ∧
    clientReturn builtinHasType "result".toList "float64".toList [("result".toList, .num 5)] =
      .ok (.value (.num 5)) ∧
    clientReturn builtinHasType "sum".toList "float64".toList
      [("error".toList, .str "boom".toList)] = .ok (.failure "boom".toList) :=
  ⟨rfl, rfl, rfl, rfl, rfl⟩

/-! ## The accept loop and the shutdown sequence (C10) -/

theorem Server.step_consistent (s s2 : Server.State) (e : Server.Event)
    (hs : Server.Consistent s) (h : Server.step s e = some s2) : Server.Consistent s2 := by
  obtain ⟨hc, hl⟩ := hs
  cases e with
  | acceptOk conn =>
    simp only [Server.step] at h
    split at h
    · injection h with h
      subst h
      exact ⟨hc, hl⟩
    · cases h
  | acceptErr =>
    simp only [Server.step] at h
    split at h
    · injection h with h
      subst h
      simp only [Server.acceptIteration]
      split
      · exact ⟨hc, hl⟩
      · exact ⟨hc, hl⟩
    · cases h
  | stopSignal =>
    simp only [Server.step] at h
    split at h
    · next hp =>
      injection h with h
      subst h
      have hopen : ¬ s.listening = false := fun hv => by
        have := hl.1 hv
        rw [hp] at this
        cases this
      simp [Server.Consistent, Server.shutdown, hopen]
    · injection h with h
      subst h
      exact ⟨hc, hl⟩
  | lbDown =>
    simp only [Server.step] at h
    split at h
    · next hp =>
      injection h with h
      subst h
      have hopen : ¬ s.listening = false := fun hv => by
        have := hl.1 hv
        rw [hp] at this
        cases this
      simp [Server.Consistent, Server.shutdown, hopen]
    · injection h with h
      subst h
      exact ⟨hc, hl⟩
  | graceElapsed =>
    simp only [Server.step] at h
    split at h
    · next hp =>
      injection h with h
      subst h
      have hcan : s.cancelled = true := hc.2 (by rw [hp]; decide)
      simp [Server.Consistent, Server.closeListener, hcan]
    · cases h

theorem Server.run_consistent (events : List Server.Event) (s s2 : Server.State)
    (hs : Server.Consistent s) (h : Server.run s events = some s2) : Server.Consistent s2 := by
  induction events generalizing s with
  | nil =>
    simp only [Server.run, Option.some.injEq] at h
    exact h ▸ hs
  | cons e es ih =>
    simp only [Server.run] at h
    cases hstep : Server.step s e with
    | none => rw [hstep] at h; cases h
    | some s1 =>
      rw [hstep] at h
      exact ih s1 (Server.step_consistent s s1 e hs hstep) h

theorem Server.init_consistent : Server.Consistent Server.init := by
  unfold Server.Consistent Server.init
  simp

theorem Server.run_stopped (events : List Server.Event) (s s2 : Server.State)
    (hs : s.listening = false) (hp : s.phase = .stopped)
    (h : Server.run s events = some s2) :
    s2.handled = s.handled ∧ s2.listening = false ∧ s2.phase = .stopped := by
  induction events generalizing s with
  | nil =>
    simp only [Server.run, Option.some.injEq] at h
    subst h
    exact ⟨rfl, hs, hp⟩
  | cons e es ih =>
    simp only [Server.run] at h
    cases hstep : Server.step s e with
    | none => rw [hstep] at h; cases h
    | some s1 =>
      rw [hstep] at h
      have h1 : s1.handled = s.handled ∧ s1.listening = false ∧ s1.phase = .stopped := by
        cases e <;> simp only [Server.step] at hstep
        · simp [hs] at hstep
        · split at hstep
          · injection hstep with hstep
            subst hstep
            simp only [Server.acceptIteration]
            split <;> exact ⟨rfl, hs, hp⟩
          · cases hstep
        · simp only [hp, reduceCtorEq, if_false, Option.some.injEq] at hstep
          subst hstep
          exact ⟨rfl, hs, hp⟩
        · simp only [hp, reduceCtorEq, if_false, Option.some.injEq] at hstep
          subst hstep
          exact ⟨rfl, hs, hp⟩
        · simp [hp] at hstep
      obtain ⟨h2, h3, h4⟩ := ih s1 h1.2.1 h1.2.2 h
      exact ⟨h2.trans h1.1, h3, h4⟩

/-- C10, as stated, fails: after the stop signal the controller has cancelled the context
and is draining, yet a connection accepted then is handed to a handler. -/
theorem connection_served_while_draining :
    Server.run Server.init [.stopSignal, .acceptOk 1] =
      some { phase := .draining, cancelled := true, listening := true, looping := true,
             handled := [1], acceptErrors := 0 } :=
  rfl

/-- C10, amended: in every state `s` the server reaches from its start, the context is
cancelled exactly when the controller has left Running and the listener is closed exactly
when it is Stopped. In Running, the first of the OS termination signal and the
load-balancer-down signal cancels the context and starts the wait (Draining); a later signal
changes nothing; when the 1-second wait ends the listener is closed (Stopped). The accept
loop checks the cancellation signal only after a failed accept attempt: while the loop runs,
a failed accept is logged in Running and ends the loop in Draining or Stopped, whereas a
successful accept - possible in Running and in Draining alike - hands the connection to a
handler; so connections are accepted and served during the grace period, and only once the
listener is closed is no further connection handed to a handler. -/
theorem shutdown_sequence (events : List Server.Event) (s : Server.State)
    (h : Server.run Server.init events = some s) :
    (s.cancelled = true ↔ s.phase ≠ .running) ∧
    (s.listening = false ↔ s.phase = .stopped) ∧
    (s.phase = .running →
      Server.step s .stopSignal = some { s with cancelled := true, phase := .draining } ∧
      Server.step s .lbDown = some { s with cancelled := true, phase := .draining }) ∧
    (s.phase ≠ .running →
      Server.step s .stopSignal = some s ∧ Server.step s .lbDown = some s) ∧
    (s.phase = .draining →
      Server.step s .graceElapsed = some { s with listening := false, phase := .stopped }) ∧
    (∀ conn, s.looping = true → s.phase ≠ .stopped →
      Server.step s (.acceptOk conn) = some { s with handled := s.handled ++ [conn] }) ∧
    (s.looping = true →
      Server.step s .acceptErr =
        some (if s.phase = .running then { s with acceptErrors := s.acceptErrors + 1 }
              else { s with looping := false })) ∧
    (s.phase = .stopped → ∀ conn, Server.step s (.acceptOk conn) = none) ∧
    (s.phase = .stopped → ∀ more s2, Server.run s more = some s2 →
      s2.handled = s.handled ∧ s2.phase = .stopped) := by
  obtain ⟨hc, hl⟩ := Server.run_consistent events Server.init s Server.init_consistent h
  refine ⟨hc, hl, ?_, ?_, ?_, ?_, ?_, ?_, ?_⟩
  · intro hp
    simp [Server.step, Server.shutdown, hp]
  · intro hp
    simp [Server.step, hp]
  · intro hp
    simp [Server.step, Server.closeListener, hp]
  · intro conn hloop hp
    have hlisten : s.listening = true := by
      cases hv : s.listening with
      | true => rfl
      | false => exact absurd (hl.1 hv) hp
    simp [Server.step, Server.acceptIteration, hloop, hlisten]
  · intro hloop
    by_cases hp : s.phase = .running
    · have hcan : s.cancelled = false := by
        cases hv : s.cancelled with
        | false => rfl
        | true => exact absurd hp (hc.1 hv)
      simp [Server.step, Server.acceptIteration, hloop, hcan, hp]
    · have hcan : s.cancelled = true := hc.2 hp
      simp [Server.step, Server.acceptIteration, hloop, hcan, hp]
  · intro hp conn
    have hlisten : s.listening = false := hl.2 hp
    simp [Server.step, hlisten]
  · intro hp more s2 hrun
    obtain ⟨h1, _, h3⟩ := Server.run_stopped more s s2 (hl.2 hp) hp hrun
    exact ⟨h1, h3⟩

/-- C10, amended, at the state reached by the load-balancer-down signal: the context is
cancelled, the listener is open, a connection accepted then is handed over, a failed accept
ends the loop, and the end of the wait closes the listener. -/
theorem shutdown_sequence_witness :
    Server.run Server.init [.lbDown] = some (Server.shutdown Server.init) ∧
    ((Server.shutdown Server.init).cancelled = true ↔
      (Server.shutdown Server.init).phase ≠ .running) ∧
    Server.step (Server.shutdown Server.init) (.acceptOk 1) =
      some { Server.shutdown Server.init with handled := [1] } ∧
    Server.step (Server.shutdown Server.init) .acceptErr =
      some { Server.shutdown Server.init with looping := false } ∧
    Server.step (Server.shutdown Server.init) .graceElapsed =
      some { Server.shutdown Server.init with listening := false, phase := .stopped } :=
  ⟨rfl,
   (shutdown_sequence [.lbDown] (Server.shutdown Server.init) rfl).1,
   (shutdown_sequence [.lbDown] (Server.shutdown Server.init) rfl).2.2.2.2.2.1 1 rfl
     (by decide),
   (shutdown_sequence [.lbDown] (Server.shutdown Server.init) rfl).2.2.2.2.2.2.1 rfl,
   (shutdown_sequence [.lbDown] (Server.shutdown Server.init) rfl).2.2.2.2.1 rfl⟩

/-! ## The parser and the stub emitter (C1, C2, C3, C6, C7, C8) -/

/-- C1: `service_status(int a) -> (int r);` is a method line of the stated form (one
parameter, identifiers made of word characters), yet the loop body takes it for the service
declaration, because it contains `service`: no method is produced and the service is named
`a)`, also when the line follows `service Calc` in a file. -/
theorem method_named_service_not_parsed :
    statusDecl.wellFormed = true ∧ statusDecl.params ≠ [] ∧
    (statusDecl.params.map Prod.snd).Nodup ∧
    statusDecl.line = "service_status(int a) -> (int r);".toList ∧
    parseLine { Name := [], Methods := [] } statusDecl.line =
      .ok { Name := "a)".toList, Methods := [] } ∧
    parse "service Calc\nservice_status(int a) -> (int r);\n".toList =
      .ok { Name := "a)".toList, Methods := [] } :=
  ⟨by decide, by decide, by decide, by decide, rfl, rfl⟩

/-- What the method branch does when it is reached: on a method line
`n(t1 p1, ..., tk pk) -> (t r);` with k >= 1, identifiers made of word characters and pairwise
distinct parameter names, on which the test for `service` fails, the loop body appends one
method whose name is `n` with its first character in upper case and the rest unchanged, whose
`Params` associate exactly each `pi` with `ti`, and whose `Returns` associate exactly `r`
with `t`. -/
theorem parseLine_method (service : Service) (d : Decl) (hwf : d.wellFormed = true)
    (hne : d.params ≠ []) (hdistinct : (d.params.map Prod.snd).Nodup)
    (hsvc : Contains d.line "service".toList = false) :
    ∃ m : Method,
      parseLine service d.line = .ok { service with Methods := service.Methods ++ [m] } ∧
      m.Name = exported d.name ∧
      (∀ p t, mapGet m.Params p = some t ↔ (t, p) ∈ d.params) ∧
      (∀ r t, mapGet m.Returns r = some t ↔ (r = d.retName ∧ t = d.retType)) := by
  refine ⟨d.method, parseLine_decl service d hwf hne hsvc, rfl, ?_, ?_⟩
  · intro p t
    show mapGet (paramMap d.params) p = some t ↔ _
    rw [mapGet_params]
    exact lastType_nodup d.params hdistinct p t
  · intro r t
    show mapGet [(d.retName, d.retType)] r = some t ↔ _
    by_cases h : d.retName = r
    · simp [mapGet, h]
      constructor
      · intro e; exact e.symm
      · intro e; exact e.symm
    · have h2 : ¬ r = d.retName := fun e => h e.symm
      simp [mapGet, h, h2]

theorem scanLines_decls (decls : List Decl) (pre : List Str)
    (hpre : ∀ l ∈ pre, (∀ c ∈ l, c ≠ '\n') ∧ dropCR l = l ∧ byteLen l < MaxScanTokenSize)
    (h : ∀ d ∈ decls, d.wellFormed = true ∧ d.params ≠ [] ∧
      Contains d.line "service".toList = false ∧ byteLen d.line < MaxScanTokenSize) :
    scanLines (fileOf (pre ++ decls.map Decl.line)) = pre ++ decls.map Decl.line := by
  apply scanLines_fileOf
  intro l hl
  rcases List.mem_append.1 hl with hl | hl
  · exact hpre l hl
  · obtain ⟨d, hd, rfl⟩ := List.mem_map.1 hl
    obtain ⟨hwf, _, _, hlen⟩ := h d hd
    exact decl_line_scans d hwf hlen

/-- C2, as stated, fails: an IDL text that declares `add` twice, the second time with the
parameter name `x` twice, parses to a service that keeps both methods and in which the
second declaration of `x` has overwritten the first. -/
theorem duplicates_parse_without_error :
    parse ("service Calc\nadd(int a, int b) -> (int result);\n" ++
           "add(int x, float64 x) -> (int result);\n").toList =
      .ok { Name := "Calc".toList,
            Methods := [{ Name := "Add".toList,
                          Params := [("a".toList, "int".toList), ("b".toList, "int".toList)],
                          Returns := [("result".toList, "int".toList)] },
                        { Name := "Add".toList,
                          Params := [("x".toList, "float64".toList)],
                          Returns := [("result".toList, "int".toList)] }] } :=
  rfl

/-- C2, amended: the parser detects no duplicates. For every IDL text made of a
`service <Name>` line followed by method declarations with identifiers made of word
characters and at least one parameter each, none containing `service`, every line shorter
than 65536 bytes - whether or not method names or parameter names repeat - parsing returns
the service with every declaration kept, in order, and each method's `Params` holds under
each parameter name the type of its last declaration. -/
theorem parse_keeps_duplicates (name : Str) (decls : List Decl)
    (hn : isIdent name = true) (hlen : byteLen (serviceLine name) < MaxScanTokenSize)
    (h : ∀ d ∈ decls, d.wellFormed = true ∧ d.params ≠ [] ∧
      Contains d.line "service".toList = false ∧ byteLen d.line < MaxScanTokenSize) :
    parse (fileOf (serviceLine name :: decls.map Decl.line)) =
      .ok { Name := name, Methods := decls.map Decl.method } ∧
    ∀ d ∈ decls, ∀ p, mapGet d.method.Params p = lastType d.params p := by
  constructor
  · have hscan := scanLines_decls decls [serviceLine name]
      (by
        intro l hl
        simp only [List.mem_singleton] at hl
        subst hl
        exact service_line_scans name hn hlen) h
    simp only [List.singleton_append] at hscan
    simp only [parse, hscan, parseLines, parseLine_service _ name hn]
    rw [parseLines_decls decls _ (fun d hd => ⟨(h d hd).1, (h d hd).2.1, (h d hd).2.2.1⟩)]
    simp
  · intro d _ p
    exact mapGet_params d.params p

/-- C2, amended, at the text that declares `add` twice and `x` twice. -/
theorem parse_keeps_duplicates_witness :
    fileOf (serviceLine "Calc".toList :: [addDecl, twiceDecl].map Decl.line) =
      ("service Calc\nadd(int a, int b) -> (int result);\n" ++
       "add(int x, float64 x) -> (int result);\n").toList ∧
    parse (fileOf (serviceLine "Calc".toList :: [addDecl, twiceDecl].map Decl.line)) =
      .ok { Name := "Calc".toList, Methods := [addDecl, twiceDecl].map Decl.method } ∧
    ∀ d ∈ [addDecl, twiceDecl], ∀ p, mapGet d.method.Params p = lastType d.params p :=
  ⟨by decide,
   parse_keeps_duplicates "Calc".toList [addDecl, twiceDecl] (by decide) (by decide)
    (by
      intro d hd
      simp only [List.mem_cons, List.mem_singleton, List.not_mem_nil, or_false] at hd
      rcases hd with hd | hd <;> subst hd <;>
        exact ⟨by decide, by decide, by rfl, by decide⟩)⟩

theorem Node.exec_congr (a b : Method) (h : Method.same a b) (n : Node) :
    Node.exec a n = Node.exec b n := by
  obtain ⟨hname, hparams, hreturns⟩ := h
  cases n with
  | text s => rfl
  | name => exact hname
  | params body => simp only [Node.exec, execRange, mapRange_congr _ _ hparams]
  | returns body => simp only [Node.exec, execRange, mapRange_congr _ _ hreturns]

theorem methods_exec_congr (t : Template) (ms1 ms2 : List Method)
    (h : List.Forall₂ Method.same ms1 ms2) :
    ms1.map (fun m => (t.method.map (Node.exec m)).flatten) =
      ms2.map (fun m => (t.method.map (Node.exec m)).flatten) := by
  induction h with
  | nil => rfl
  | cons hab _ ih =>
    simp only [List.map_cons, ih, List.cons.injEq, and_true]
    congr 1
    apply List.map_congr_left
    intro n _
    exact Node.exec_congr _ _ hab n

theorem Template.Execute_congr (t : Template) (s1 s2 : Service) (h : Service.same s1 s2) :
    t.Execute s1 = t.Execute s2 := by
  simp only [Template.Execute, methods_exec_congr t _ _ h.2]

/-- C3, as stated, fails: for `sub(int b, int a) -> (int result);` both stubs list the
parameters as `a`, `b` - by name, not in the declared order `b`, `a`. -/
theorem parameters_emitted_in_name_order :
    parse "service Calc\nsub(int b, int a) -> (int result);\n".toList =
      .ok { Name := "Calc".toList, Methods := [subMethod] } ∧
    subDecl.line = "sub(int b, int a) -> (int result);".toList ∧
    subDecl.params.map Prod.snd = ["b".toList, "a".toList] ∧
    (mapRange subMethod.Params).map Prod.fst = ["a".toList, "b".toList] ∧
    clientStubTemplate.Execute { Name := "Calc".toList, Methods := [subMethod] } =
      clientStubTemplate.header ++ subClientText ++ clientStubTemplate.footer ∧
    serverStubTemplate.Execute { Name := "Calc".toList, Methods := [subMethod] } =
      serverStubTemplate.header ++ subServerText ++ serverStubTemplate.footer :=
  ⟨rfl, by decide, rfl, rfl, rfl, rfl⟩

/-- C3, amended: for every Service, the emitted client stub is the header followed by one
function per method, in the order of the methods, and the emitted server stub is the header,
one `case` per method and the footer; the function and the `case` of a method list its
parameters in ascending order of the parameter names, each entry of `Params` exactly once
(the listing `mapRange`); and rendering a Service twice - be it laid out differently in
memory - yields byte-identical text. -/
theorem stubs_list_parameters_by_name (s1 s2 : Service) (h : Service.same s1 s2) :
    clientStubTemplate.Execute s1 = clientStubTemplate.Execute s2 ∧
    serverStubTemplate.Execute s1 = serverStubTemplate.Execute s2 ∧
    clientStubTemplate.Execute s1 =
      clientStubTemplate.header ++
        (s1.Methods.map (fun m =>
          clientFunction m.Name (mapRange m.Params) (mapRange m.Returns))).flatten ++
        clientStubTemplate.footer ∧
    serverStubTemplate.Execute s1 =
      serverStubTemplate.header ++
        (s1.Methods.map (fun m => serverCase m.Name (mapRange m.Params))).flatten ++
        serverStubTemplate.footer ∧
    ∀ m ∈ s1.Methods,
      List.Pairwise (fun a b => strLe a b = true ∧ a ≠ b) ((mapRange m.Params).map Prod.fst) ∧
      (∀ k v, (k, v) ∈ mapRange m.Params ↔ mapGet m.Params k = some v) ∧
      List.Pairwise (fun a b => strLe a b = true ∧ a ≠ b)
        ((mapRange m.Returns).map Prod.fst) ∧
      (∀ k v, (k, v) ∈ mapRange m.Returns ↔ mapGet m.Returns k = some v) := by
  refine ⟨Template.Execute_congr _ s1 s2 h, Template.Execute_congr _ s1 s2 h, ?_, ?_, ?_⟩
  · show clientStubTemplate.header ++ (s1.Methods.map (fun m =>
        (clientStubTemplate.method.map (Node.exec m)).flatten)).flatten ++
        clientStubTemplate.footer = _
    have hfun : (fun m : Method => (clientStubTemplate.method.map (Node.exec m)).flatten) =
        (fun m => clientFunction m.Name (mapRange m.Params) (mapRange m.Returns)) :=
      funext fun _ => rfl
    rw [hfun]
  · show serverStubTemplate.header ++ (s1.Methods.map (fun m =>
        (serverStubTemplate.method.map (Node.exec m)).flatten)).flatten ++
        serverStubTemplate.footer = _
    have hfun : (fun m : Method => (serverStubTemplate.method.map (Node.exec m)).flatten) =
        (fun m => serverCase m.Name (mapRange m.Params)) :=
      funext fun _ => rfl
    rw [hfun]
  · intro m _
    exact ⟨mapRange_ascending m.Params, mem_mapRange m.Params,
      mapRange_ascending m.Returns, mem_mapRange m.Returns⟩

theorem sameMap_swapped :
    sameMap [("b".toList, "int".toList), ("a".toList, "int".toList)]
      [("a".toList, "int".toList), ("b".toList, "int".toList)] := by
  intro k
  by_cases ha : "a".toList = k
  · subst ha
    rfl
  · by_cases hb : "b".toList = k
    · subst hb
      rfl
    · simp only [mapGet, ha, hb, if_false]

/-- C3, amended, at the method `Sub` laid out with `b` first and with `a` first: the same
text, with `a` before `b`. -/
theorem stubs_list_parameters_by_name_witness :
    clientStubTemplate.Execute { Name := "Calc".toList, Methods := [subMethod] } =
      clientStubTemplate.Execute { Name := "Calc".toList, Methods := [subMethodSwapped] } ∧
    serverStubTemplate.Execute { Name := "Calc".toList, Methods := [subMethod] } =
      serverStubTemplate.Execute { Name := "Calc".toList, Methods := [subMethodSwapped] } ∧
    clientStubTemplate.Execute { Name := "Calc".toList, Methods := [subMethod] } =
      clientStubTemplate.header ++
        ([subMethod].map (fun m =>
          clientFunction m.Name (mapRange m.Params) (mapRange m.Returns))).flatten ++
        clientStubTemplate.footer ∧
    serverStubTemplate.Execute { Name := "Calc".toList, Methods := [subMethod] } =
      serverStubTemplate.header ++
        ([subMethod].map (fun m => serverCase m.Name (mapRange m.Params))).flatten ++
        serverStubTemplate.footer ∧
    ∀ m ∈ [subMethod],
      List.Pairwise (fun a b => strLe a b = true ∧ a ≠ b) ((mapRange m.Params).map Prod.fst) ∧
      (∀ k v, (k, v) ∈ mapRange m.Params ↔ mapGet m.Params k = some v) ∧
      List.Pairwise (fun a b => strLe a b = true ∧ a ≠ b)
        ((mapRange m.Returns).map Prod.fst) ∧
      (∀ k v, (k, v) ∈ mapRange m.Returns ↔ mapGet m.Returns k = some v) :=
  stubs_list_parameters_by_name { Name := "Calc".toList, Methods := [subMethod] }
    { Name := "Calc".toList, Methods := [subMethodSwapped] }
    ⟨rfl, List.Forall₂.cons ⟨rfl, sameMap_swapped, fun _ => rfl⟩ List.Forall₂.nil⟩

/-- C6: on every method line with an empty parameter list, `n() -> (t r);`, the loop body
panics with an index out of range: the split of the empty parameter text is one empty string,
which has no fields. -/
theorem parseLine_empty_params_panics (service : Service) (d : Decl)
    (hwf : d.wellFormed = true) (hempty : d.params = [])
    (hsvc : Contains d.line "service".toList = false) :
    parseLine service d.line = .error .indexOutOfRange := by
  obtain ⟨hn, _, hrt, hrn⟩ := (wellFormed_iff d).1 hwf
  have hr : ∀ c ∈ d.retType ++ ' ' :: d.retName, notClose c = true := by
    intro c hc
    simp only [List.mem_append, List.mem_cons] at hc
    rcases hc with hc | hc | hc
    · exact isWord_notClose c (ident_mem hrt c hc)
    · subst hc; decide
    · exact isWord_notClose c (ident_mem hrn c hc)
  have hfind := find_line d.name [] (d.retType ++ ' ' :: d.retName) hn (by simp) hr
  have hline : d.line = d.name ++ '(' :: ([] ++
      ')' :: ' ' :: '-' :: '>' :: ' ' :: '(' :: ((d.retType ++ ' ' :: d.retName) ++ [')', ';'])) := by
    simp [Decl.line, hempty, paramsText]
  obtain ⟨c, cs, hname⟩ : ∃ c cs, d.name = c :: cs := by
    cases hd : d.name with
    | nil => exact absurd hd (ident_ne_nil hn)
    | cons c cs => exact ⟨c, cs, rfl⟩
  have hm : parseMethod d.line = .error .indexOutOfRange := by
    unfold parseMethod
    rw [hline, hfind]
    simp only [Option.getD, index, List.get?, hname, bind, Except.bind, Split, splitAux,
      parseParams, Fields, fieldsAux, List.isEmpty_nil, if_true]
  simp only [parseLine, hsvc, contains_arrow d, hm, if_true, Bool.false_eq_true, if_false,
    bind, Except.bind]

/-- C6 at `ping() -> (int r);`. -/
theorem parseLine_empty_params_panics_witness :
    pingDecl.line = "ping() -> (int r);".toList ∧
    parseLine { Name := "Calc".toList, Methods := [] } pingDecl.line =
      .error .indexOutOfRange :=
  ⟨by decide, parseLine_empty_params_panics _ pingDecl (by decide) rfl (by rfl)⟩

/-- C7, as stated, fails: on an IDL text without a service declaration the generator goes
on with a service whose name is empty and writes both stubs, to `client_stub_.go` and
`server_stub_.go`. -/
theorem stubs_emitted_without_service_line :
    parse "add(int a, int b) -> (int result);\n".toList =
      .ok { Name := [], Methods := [addDecl.method] } ∧
    Generators.main (fun _ => true) "add(int a, int b) -> (int result);\n".toList =
      { written :=
          [{ path := "../client/stub/client_stub_.go".toList,
             content := clientStubTemplate.Execute { Name := [], Methods := [addDecl.method] } },
           { path := "../server/stub/server_stub_.go".toList,
             content := serverStubTemplate.Execute { Name := [], Methods := [addDecl.method] } }],
        panicked := none } :=
  ⟨rfl, rfl⟩

/-- C7, amended: for every IDL text without a service declaration that is made of method
declarations with identifiers made of word characters and at least one parameter each, none
containing `service`, every line shorter than 65536 bytes, parsing returns a Service whose
name is empty and that holds every declared method, and the generator goes on with it and,
where the two files can be created, writes both stubs, to `client_stub_.go` and
`server_stub_.go`. -/
theorem main_without_service_line (canCreate : Str → Bool) (decls : List Decl)
    (h : ∀ d ∈ decls, d.wellFormed = true ∧ d.params ≠ [] ∧
      Contains d.line "service".toList = false ∧ byteLen d.line < MaxScanTokenSize)
    (hclient : canCreate "../client/stub/client_stub_.go".toList = true)
    (hserver : canCreate "../server/stub/server_stub_.go".toList = true) :
    parse (fileOf (decls.map Decl.line)) =
      .ok { Name := [], Methods := decls.map Decl.method } ∧
    Generators.main canCreate (fileOf (decls.map Decl.line)) =
      { written :=
          [{ path := "../client/stub/client_stub_.go".toList,
             content := clientStubTemplate.Execute
               { Name := [], Methods := decls.map Decl.method } },
           { path := "../server/stub/server_stub_.go".toList,
             content := serverStubTemplate.Execute
               { Name := [], Methods := decls.map Decl.method } }],
        panicked := none } := by
  have hp : parse (fileOf (decls.map Decl.line)) =
      .ok { Name := [], Methods := decls.map Decl.method } := by
    have hscan := scanLines_decls decls []
      (by intro l hl; cases hl) h
    simp only [List.nil_append] at hscan
    simp only [parse, hscan]
    rw [parseLines_decls decls _ (fun d hd => ⟨(h d hd).1, (h d hd).2.1, (h d hd).2.2.1⟩)]
    simp
  refine ⟨hp, ?_⟩
  have hc : canCreate (addServiceToClient
      { Name := [], Methods := decls.map Decl.method }).path = true := hclient
  have hs : canCreate (addServiceToServer
      { Name := [], Methods := decls.map Decl.method }).path = true := hserver
  simp only [Generators.main, hp, hc, hs, if_true]
  rfl

/-- C7, amended, at the text of the two lines `add(int a, int b) -> (int result);` and
`sub(int b, int a) -> (int result);`, where every file can be created. -/
theorem main_without_service_line_witness :
    fileOf ([addDecl, subDecl].map Decl.line) =
      ("add(int a, int b) -> (int result);\n" ++
       "sub(int b, int a) -> (int result);\n").toList ∧
    parse (fileOf ([addDecl, subDecl].map Decl.line)) =
      .ok { Name := [], Methods := [addDecl, subDecl].map Decl.method } ∧
    Generators.main (fun _ => true) (fileOf ([addDecl, subDecl].map Decl.line)) =
      { written :=
          [{ path := "../client/stub/client_stub_.go".toList,
             content := clientStubTemplate.Execute
               { Name := [], Methods := [addDecl, subDecl].map Decl.method } },
           { path := "../server/stub/server_stub_.go".toList,
             content := serverStubTemplate.Execute
               { Name := [], Methods := [addDecl, subDecl].map Decl.method } }],
        panicked := none } :=
  ⟨by decide,
   main_without_service_line (fun _ => true) [addDecl, subDecl]
    (by
      intro d hd
      simp only [List.mem_cons, List.mem_singleton, List.not_mem_nil, or_false] at hd
      rcases hd with hd | hd <;> subst hd <;>
        exact ⟨by decide, by decide, by rfl, by decide⟩)
    rfl rfl⟩

/-- C8: on the text `service Calc`, `add(int a, int b) -> (int result);`,
`get_service(int a) -> (int r);` the scanner delivers the three lines and the parser takes
the third for a service declaration: the method `get_service` is dropped and the service is
renamed to `a)`. -/
theorem method_containing_service_is_dropped :
    scanLines ("service Calc\nadd(int a, int b) -> (int result);\n" ++
               "get_service(int a) -> (int r);\n").toList =
      ["service Calc".toList, "add(int a, int b) -> (int result);".toList,
       "get_service(int a) -> (int r);".toList] ∧
    parse ("service Calc\nadd(int a, int b) -> (int result);\n" ++
           "get_service(int a) -> (int r);\n").toList =
      .ok { Name := "a)".toList,
            Methods := [{ Name := "Add".toList,
                          Params := [("a".toList, "int".toList), ("b".toList, "int".toList)],
                          Returns := [("result".toList, "int".toList)] }] } :=
  ⟨rfl, rfl⟩

end LbRpc
